import Mathlib

/-! # SPIR-V attributes (`mlir/lib/Dialect/SPIRV/SPIRVAttributes.cpp`)

A shallow embedding of the three SPIR-V dialect attributes `InterfaceVarABIAttr`,
`VerCapExtAttr` and `TargetEnvAttr`: their storage classes, the `get` entry points,
the accessors and the construction verifiers.

Conventions of the embedding.

* A C++ `assert` that fails, a `cast<>` to the wrong kind, or a use of a null handle is a
  precondition violation; the embedded function returns `none` there.
* Machine integers are natural numbers or integers with explicit reduction modulo a power
  of two at every narrowing conversion.
* Attributes are uniqued by their context, so pointer equality of attributes is structural
  equality of the values below.
-/

namespace mlir

/-! ## Builtin types and attributes -/

/-- Modelled from the spec: `IntegerType::SignednessSemantics` of mlir/IR/StandardTypes.h, the
signedness semantics of an integer type. -/
inductive SignednessSemantics where
  | Signless
  | Signed
  | Unsigned
  deriving DecidableEq, Repr

/-- Modelled from the spec: the types of mlir/IR that an `IntegerAttr` may carry, an
`IntegerType` of some width and signedness or the `IndexType`. -/
inductive MlirType where
  | integer (width : Nat) (signedness : SignednessSemantics)
  | index
  deriving DecidableEq, Repr

namespace MlirType

/-- Modelled from the spec: the width of the `APInt` that an integer attribute of the type
holds; `index` values are held in 64 bits. -/
def bitWidth : MlirType → Nat
  | integer w _ => w
  | index => 64

/-- Modelled from the spec: `Type::isSignlessInteger(unsigned width)` of mlir/IR/Types.h, the
test for a scalar that is a 32-bit value when `width` is 32. -/
def isSignlessIntegerOfWidth (t : MlirType) (width : Nat) : Bool :=
  match t with
  | integer w .Signless => w == width
  | _ => false

/-- Modelled from the spec: `Type::isSignlessInteger()` of mlir/IR/Types.h. -/
def isSignlessInteger : MlirType → Bool
  | integer _ .Signless => true
  | _ => false

/-- Modelled from the spec: `Type::isIndex()` of mlir/IR/Types.h. -/
def isIndex : MlirType → Bool
  | index => true
  | _ => false

end MlirType

/-- Modelled from the spec: `llvm::APInt` of llvm/ADT/APInt.h, a scalar held as a bit width and
the zero-extended value of its bits. -/
structure APInt where
  BitWidth : Nat
  VAL : Nat
  deriving DecidableEq, Repr

namespace APInt

/-- Modelled from the spec: `APInt::getZExtValue` of llvm/ADT/APInt.h, which asserts that the
value fits in 64 bits. -/
def getZExtValue (a : APInt) : Option Nat :=
  if a.VAL < 2 ^ 64 then some a.VAL else none

/-- Modelled from the spec: the value of the bits of an `APInt` read as a two's complement
number of `BitWidth` bits. -/
def signedValue (a : APInt) : Int :=
  if 2 * a.VAL < 2 ^ a.BitWidth then (a.VAL : Int) else (a.VAL : Int) - 2 ^ a.BitWidth

/-- Modelled from the spec: `APInt::getSExtValue` of llvm/ADT/APInt.h, which asserts that the
signed value fits in 64 bits. -/
def getSExtValue (a : APInt) : Option Int :=
  let v := a.signedValue
  if -(2 ^ 63) ≤ v ∧ v < 2 ^ 63 then some v else none

end APInt

/-- Modelled from the spec: `IntegerAttributeStorage` of mlir/IR/AttributeDetail.h, the
payload of a scalar sub-attribute: its type and its bits, which fit the width of the type. -/
structure IntegerAttributeStorage where
  type : MlirType
  value : Nat
  isLt : value < 2 ^ type.bitWidth

instance : DecidableEq IntegerAttributeStorage := fun a b =>
  match a, b with
  | ⟨t₁, v₁, _⟩, ⟨t₂, v₂, _⟩ =>
    if h : t₁ = t₂ ∧ v₁ = v₂ then isTrue (by obtain ⟨rfl, rfl⟩ := h; rfl)
    else isFalse (fun e => h (by cases e; exact ⟨rfl, rfl⟩))

/-- Modelled from the spec: the interned attributes of mlir/IR/Attributes.h that the source
file handles, held by value; `null` is the null handle `Attribute()`. -/
inductive Attribute where
  | null
  | unit
  | integer (storage : IntegerAttributeStorage)
  | string (value : String)
  | array (value : List Attribute)
  | dictionary (value : List (String × Attribute))
  | interfaceVarABI (descriptorSet binding storageClass : Attribute)
  | verCapExt (version capabilities extensions : Attribute)
  | targetEnv (triple limits : Attribute)

namespace Attribute

mutual
/-- Modelled from the spec: `Attribute::operator==` of mlir/IR/Attributes.h. Attributes are
interned, so the identity of two attributes is their structural equality. -/
def beq : Attribute → Attribute → Bool
  | null, null => true
  | unit, unit => true
  | integer a, integer b => decide (a = b)
  | string a, string b => decide (a = b)
  | array a, array b => beqList a b
  | dictionary a, dictionary b => beqDict a b
  | interfaceVarABI a b c, interfaceVarABI x y z => beq a x && beq b y && beq c z
  | verCapExt a b c, verCapExt x y z => beq a x && beq b y && beq c z
  | targetEnv a b, targetEnv x y => beq a x && beq b y
  | _, _ => false
/-- Modelled from the spec: elementwise identity of two lists of interned attributes. -/
def beqList : List Attribute → List Attribute → Bool
  | [], [] => true
  | a :: as, b :: bs => beq a b && beqList as bs
  | _, _ => false
/-- Modelled from the spec: entrywise identity of the entries of two dictionary attributes. -/
def beqDict : List (String × Attribute) → List (String × Attribute) → Bool
  | [], [] => true
  | (n, a) :: as, (m, b) :: bs => decide (n = m) && beq a b && beqDict as bs
  | _, _ => false
end

instance : BEq Attribute := ⟨beq⟩

/-- Modelled from the spec: `Attribute::operator bool` of mlir/IR/Attributes.h, negated: the
handle holds no storage. -/
def isNull : Attribute → Bool
  | null => true
  | _ => false

/-- Modelled from the spec: `Attribute::isa<U>()` of mlir/IR/Attributes.h, the type-tag check
of the attribute kind registry. It asserts that the attribute is not null and then asks
`U::classof`. -/
def isa (classof : Attribute → Bool) (a : Attribute) : Option Bool :=
  if a.isNull then none else some (classof a)

end Attribute

/-- Modelled from the spec: a typed view (`IntegerAttr`, `ArrayAttr`, ...) of mlir/IR, a handle
that is null or references an attribute of the kind recognised by `classof`. -/
structure Handle (classof : Attribute → Bool) where
  impl : Attribute
  isKind : (impl.isNull || classof impl) = true

namespace Handle

/-- Modelled from the spec: the null handle, as built by a default constructor such as
`IntegerAttr()`. -/
def null (classof : Attribute → Bool) : Handle classof := ⟨.null, rfl⟩

/-- Modelled from the spec: `Attribute::operator bool` on a typed handle. -/
def isNonNull {classof : Attribute → Bool} (h : Handle classof) : Bool := !h.impl.isNull

end Handle

namespace Attribute

/-- Modelled from the spec: `Attribute::cast<U>()` of mlir/IR/Attributes.h, the downcast to an
exact kind. It asserts `isa<U>()`, so it is undefined on a null attribute and on an attribute
of another kind. -/
def cast (classof : Attribute → Bool) (a : Attribute) : Option (Handle classof) :=
  if h : classof a = true then some ⟨a, by simp [h]⟩ else none

/-- Modelled from the spec: `Attribute::dyn_cast<U>()` of mlir/IR/Attributes.h. It asserts that
the attribute is not null and yields the null handle on an attribute of another kind. -/
def dyn_cast (classof : Attribute → Bool) (a : Attribute) : Option (Handle classof) :=
  if a.isNull then none
  else if h : classof a = true then some ⟨a, by simp [h]⟩
  else some (Handle.null classof)

end Attribute

/-! ### Builtin attribute handles -/

/-- Modelled from the spec: `IntegerAttr::classof` of mlir/IR/Attributes.h. -/
def IntegerAttr.classof : Attribute → Bool
  | .integer _ => true
  | _ => false

/-- Modelled from the spec: `StringAttr::classof` of mlir/IR/Attributes.h. -/
def StringAttr.classof : Attribute → Bool
  | .string _ => true
  | _ => false

/-- Modelled from the spec: `ArrayAttr::classof` of mlir/IR/Attributes.h. -/
def ArrayAttr.classof : Attribute → Bool
  | .array _ => true
  | _ => false

/-- Modelled from the spec: `DictionaryAttr::classof` of mlir/IR/Attributes.h. -/
def DictionaryAttr.classof : Attribute → Bool
  | .dictionary _ => true
  | _ => false

abbrev IntegerAttr := Handle IntegerAttr.classof
abbrev StringAttr := Handle StringAttr.classof
abbrev ArrayAttr := Handle ArrayAttr.classof
abbrev DictionaryAttr := Handle DictionaryAttr.classof

namespace IntegerAttr

/-- Modelled from the spec: `IntegerAttr::get(Type, const APInt &)` of mlir/IR/Attributes.cpp,
a scalar sub-attribute holding `value` reduced to the width of `type`. -/
def get (type : MlirType) (value : Nat) : IntegerAttr :=
  ⟨.integer ⟨type, value % 2 ^ type.bitWidth, Nat.mod_lt _ (Nat.pos_pow_of_pos _ (by decide))⟩, rfl⟩

/-- Modelled from the spec: `Attribute::getType()` of mlir/IR/Attributes.h on an integer
attribute; undefined on the null handle. -/
def getType (a : IntegerAttr) : Option MlirType :=
  match a.impl with
  | .integer s => some s.type
  | _ => none

/-- Modelled from the spec: `IntegerAttr::getValue()` of mlir/IR/Attributes.cpp, the stored
bits as an `APInt` of the width of the type; undefined on the null handle. -/
def getValue (a : IntegerAttr) : Option APInt :=
  match a.impl with
  | .integer s => some ⟨s.type.bitWidth, s.value⟩
  | _ => none

/-- Modelled from the spec: `IntegerAttr::getInt()` of mlir/IR/Attributes.cpp. It asserts that
the type is `index` or a signless integer and returns `getValue().getSExtValue()`. -/
def getInt (a : IntegerAttr) : Option Int :=
  match a.impl with
  | .integer s =>
    if s.type.isIndex || s.type.isSignlessInteger then
      APInt.getSExtValue ⟨s.type.bitWidth, s.value⟩
    else none
  | _ => none

end IntegerAttr

/-- Modelled from the spec: `StringAttr::getValue()` of mlir/IR/Attributes.cpp; undefined on
the null handle. -/
def StringAttr.getValue (a : StringAttr) : Option String :=
  match a.impl with
  | .string s => some s
  | _ => none

/-- Modelled from the spec: `ArrayAttr::getValue()` of mlir/IR/Attributes.cpp; undefined on
the null handle. -/
def ArrayAttr.getValue (a : ArrayAttr) : Option (List Attribute) :=
  match a.impl with
  | .array l => some l
  | _ => none

/-! ### Integer conversions and the builder -/

/-- Conversion of an unsigned value to `uint32_t`. -/
def truncUInt32 (v : Nat) : Nat := v % 2 ^ 32

/-- Conversion of a signed value (`int64_t`) to `uint32_t`. -/
def toUInt32 (v : Int) : Nat := (v % 2 ^ 32).toNat

/-- Conversion of a `uint32_t` to `int32_t`, as at the call of `getI32IntegerAttr`. -/
def toInt32 (v : Nat) : Int :=
  if v % 2 ^ 32 < 2 ^ 31 then ((v % 2 ^ 32 : Nat) : Int) else ((v % 2 ^ 32 : Nat) : Int) - 2 ^ 32

namespace Builder

/-- Modelled from the spec: `Builder::getI32IntegerAttr(int32_t)` of mlir/IR/Builders.cpp, which
builds the scalar sub-attribute `IntegerAttr::get(getIntegerType(32), APInt(32, value))`; the
`APInt` constructor takes the value as a sign-extended `uint64_t`. -/
def getI32IntegerAttr (value : Int) : IntegerAttr :=
  IntegerAttr.get (.integer 32 .Signless) (value % 2 ^ 64).toNat

/-- Modelled from the spec: `Builder::getStringAttr` of mlir/IR/Builders.cpp. -/
def getStringAttr (bytes : String) : StringAttr := ⟨.string bytes, rfl⟩

/-- Modelled from the spec: `Builder::getArrayAttr` of mlir/IR/Builders.cpp. -/
def getArrayAttr (value : List Attribute) : ArrayAttr := ⟨.array value, rfl⟩

end Builder

/-- Modelled from the spec: `LogicalResult` of mlir/Support/LogicalResult.h as returned by a
construction verifier: `success()`, or the failure that `emitError(loc, message)` converts to,
together with the message handed to the diagnostic sink. -/
inductive LogicalResult where
  | success
  | failure (diagnostic : String)
  deriving DecidableEq, Repr

/-- Modelled from the spec: `emitError(loc, message)` of mlir/IR/Diagnostics.h returned as a
`LogicalResult`; the location only attributes the message and is left out. -/
def emitError (message : String) : LogicalResult := .failure message

namespace spirv

/-! ## Closed enumerations -/

/-- Modelled from the spec: the enumeration `spirv::StorageClass : uint32_t` (generated into
SPIRVEnums.h.inc), held by its underlying value. -/
structure StorageClass where
  value : Nat
  deriving DecidableEq, Repr

/-- Modelled from the spec: the enumeration `spirv::Capability : uint32_t` (generated into
SPIRVEnums.h.inc), held by its underlying value. -/
structure Capability where
  value : Nat
  deriving DecidableEq, Repr

/-- Modelled from the spec: the enumeration `spirv::Extension : uint32_t` (generated into
SPIRVEnums.h.inc), held by its underlying value. -/
structure Extension where
  value : Nat
  deriving DecidableEq, Repr

/-- Modelled from the spec: the enumeration `spirv::Version : uint32_t` (generated into
SPIRVEnums.h.inc), held by its underlying value. -/
structure Version where
  value : Nat
  deriving DecidableEq, Repr

/-- Modelled from the spec: the reverse symbol lookup tables, one per closed enumeration
(generated into SPIRVEnums.h.inc / SPIRVEnums.cpp.inc, not part of the source file). Storage
classes, capabilities and versions are listed by numeric code, extensions by numeric code and
textual name. -/
structure Enums where
  storageClasses : List Nat
  capabilities : List Nat
  versions : List Nat
  extensions : List (Nat × String)

namespace Enums

/-- A closed enumeration maps both ways: every numeric code is a `uint32_t`, and no two
extension entries share a code or a name. -/
def WellFormed (E : Enums) : Prop :=
  (∀ c ∈ E.storageClasses, c < 2 ^ 32) ∧ (∀ c ∈ E.capabilities, c < 2 ^ 32) ∧
  (∀ c ∈ E.versions, c < 2 ^ 32) ∧ (∀ p ∈ E.extensions, p.1 < 2 ^ 32) ∧
  (E.extensions.map Prod.fst).Nodup ∧ (E.extensions.map Prod.snd).Nodup

instance (E : Enums) : Decidable E.WellFormed := by
  unfold WellFormed; infer_instance

/-- The value is a member of the storage class enumeration. -/
def isStorageClass (E : Enums) (m : StorageClass) : Prop := m.value ∈ E.storageClasses

/-- The value is a member of the capability enumeration. -/
def isCapability (E : Enums) (m : Capability) : Prop := m.value ∈ E.capabilities

/-- The value is a member of the version enumeration. -/
def isVersion (E : Enums) (m : Version) : Prop := m.value ∈ E.versions

/-- The value is a member of the extension enumeration. -/
def isExtension (E : Enums) (m : Extension) : Prop := m.value ∈ E.extensions.map Prod.fst

instance (E : Enums) (m : StorageClass) : Decidable (E.isStorageClass m) := by
  unfold isStorageClass; infer_instance

instance (E : Enums) (m : Capability) : Decidable (E.isCapability m) := by
  unfold isCapability; infer_instance

instance (E : Enums) (m : Version) : Decidable (E.isVersion m) := by
  unfold isVersion; infer_instance

instance (E : Enums) (m : Extension) : Decidable (E.isExtension m) := by
  unfold isExtension; infer_instance

end Enums

/-- Modelled from the spec: `symbolizeStorageClass(uint32_t)`, the reverse symbol lookup that
returns the member with the numeric code, or nothing. -/
def symbolizeStorageClass (E : Enums) (value : Nat) : Option StorageClass :=
  if value ∈ E.storageClasses then some ⟨value⟩ else none

/-- Modelled from the spec: `symbolizeCapability(uint32_t)`, the reverse symbol lookup that
returns the member with the numeric code, or nothing. -/
def symbolizeCapability (E : Enums) (value : Nat) : Option Capability :=
  if value ∈ E.capabilities then some ⟨value⟩ else none

/-- Modelled from the spec: `symbolizeVersion(uint32_t)`, the reverse symbol lookup that
returns the member with the numeric code, or nothing. -/
def symbolizeVersion (E : Enums) (value : Nat) : Option Version :=
  if value ∈ E.versions then some ⟨value⟩ else none

/-- Modelled from the spec: `symbolizeExtension(StringRef)`, the reverse symbol lookup that
returns the member with the textual name, or nothing. -/
def symbolizeExtension (E : Enums) (str : String) : Option Extension :=
  (E.extensions.find? (fun p => p.2 == str)).map (fun p => ⟨p.1⟩)

/-- Modelled from the spec: `stringifyExtension(Extension)`, which returns the canonical name
of a member, and the empty string for a value that is no member. -/
def stringifyExtension (E : Enums) (val : Extension) : String :=
  match E.extensions.find? (fun p => p.1 == val.value) with
  | some p => p.2
  | none => ""

/-! ## Attribute storage classes -/

namespace detail

/-- Embeds `struct InterfaceVarABIAttributeStorage`. -/
structure InterfaceVarABIAttributeStorage where
  descriptorSet : Attribute
  binding : Attribute
  storageClass : Attribute

namespace InterfaceVarABIAttributeStorage

/-- Embeds `KeyTy = std::tuple<Attribute, Attribute, Attribute>`. -/
abbrev KeyTy := Attribute × Attribute × Attribute

/-- Embeds `bool operator==(const KeyTy &key) const`. -/
def operator_eq (self : InterfaceVarABIAttributeStorage) (key : KeyTy) : Bool :=
  key.1 == self.descriptorSet && key.2.1 == self.binding && key.2.2 == self.storageClass

/-- Embeds `construct(allocator, key)`. -/
def construct (key : KeyTy) : InterfaceVarABIAttributeStorage :=
  ⟨key.1, key.2.1, key.2.2⟩

end InterfaceVarABIAttributeStorage

/-- Embeds `struct VerCapExtAttributeStorage`. -/
structure VerCapExtAttributeStorage where
  version : Attribute
  capabilities : Attribute
  extensions : Attribute

namespace VerCapExtAttributeStorage

/-- Embeds `KeyTy = std::tuple<Attribute, Attribute, Attribute>`. -/
abbrev KeyTy := Attribute × Attribute × Attribute

/-- Embeds `bool operator==(const KeyTy &key) const`. -/
def operator_eq (self : VerCapExtAttributeStorage) (key : KeyTy) : Bool :=
  key.1 == self.version && key.2.1 == self.capabilities && key.2.2 == self.extensions

/-- Embeds `construct(allocator, key)`. -/
def construct (key : KeyTy) : VerCapExtAttributeStorage :=
  ⟨key.1, key.2.1, key.2.2⟩

end VerCapExtAttributeStorage

/-- Embeds `struct TargetEnvAttributeStorage`. -/
structure TargetEnvAttributeStorage where
  triple : Attribute
  limits : Attribute

namespace TargetEnvAttributeStorage

/-- Embeds `KeyTy = std::pair<Attribute, Attribute>`. -/
abbrev KeyTy := Attribute × Attribute

/-- Embeds `bool operator==(const KeyTy &key) const`. -/
def operator_eq (self : TargetEnvAttributeStorage) (key : KeyTy) : Bool :=
  key.1 == self.triple && key.2 == self.limits

/-- Embeds `construct(allocator, key)`. -/
def construct (key : KeyTy) : TargetEnvAttributeStorage :=
  ⟨key.1, key.2⟩

end TargetEnvAttributeStorage

end detail

/-! ## The interning table -/

/-- Modelled from the spec: the interface a kind offers to the generic interning engine, a
"kind with (KeyType, equality, verify, construct)" (spec §8). `Args` are the typed arguments of
a request and `key` normalises them into the structural key. The engine itself
(`StorageUniquer`, reached through `Base::get`) is not part of the source file. -/
structure AttrKind (Args KeyTy Storage : Type) where
  key : Args → KeyTy
  verify : Args → Option LogicalResult
  construct : KeyTy → Storage
  equals : Storage → KeyTy → Bool

/-- Modelled from the spec: the probe of the existing records of one type tag for structural
equality (spec §4.1); it yields the position of the first matching record. The position of a
record in the table stands for its address in the arena. -/
def probe {Storage : Type} (p : Storage → Bool) : List Storage → Option Nat
  | [] => none
  | r :: rs => if p r then some 0 else (probe p rs).map (· + 1)

/-- Modelled from the spec: the outcome of a request to the interning table (spec §4.1): the
table afterwards and either the record (its position and its content) or the verification
error. -/
structure Interned (Storage : Type) where
  table : List Storage
  result : Except String (Nat × Storage)

/-- Modelled from the spec: `getOrCreate(Context, TypeTag, Key)` (spec §4.1), reached from the
source through `Base::get`. An existing record that equals the key is returned; otherwise the
construction verifier runs and, only if it succeeds, a new record is allocated and inserted;
if it fails, no record is created and the call surfaces the verification error. The result
is `none` when the verifier itself hits a precondition violation. -/
def getOrCreate {Args KeyTy Storage : Type} (K : AttrKind Args KeyTy Storage)
    (table : List Storage) (args : Args) : Option (Interned Storage) :=
  match probe (fun r => K.equals r (K.key args)) table with
  | some i =>
    match table.get? i with
    | some r => some ⟨table, .ok (i, r)⟩
    | none => none
  | none =>
    match K.verify args with
    | none => none
    | some (.failure diagnostic) => some ⟨table, .error diagnostic⟩
    | some .success =>
      some ⟨table ++ [K.construct (K.key args)], .ok (table.length, K.construct (K.key args))⟩

/-- Two successive requests to one table, for `a₁` and then for `a₂`, both return a record, and
they return the same record (the same position in the arena) exactly when the two keys are
equal. -/
def SameRecordIffEqualKeys {Args KeyTy Storage : Type} (K : AttrKind Args KeyTy Storage)
    (table : List Storage) (a₁ a₂ : Args) : Prop :=
  ∃ t₁ p₁ r₁ t₂ p₂ r₂,
    getOrCreate K table a₁ = some ⟨t₁, .ok (p₁, r₁)⟩ ∧
    getOrCreate K t₁ a₂ = some ⟨t₂, .ok (p₂, r₂)⟩ ∧
    (p₁ = p₂ ↔ K.key a₁ = K.key a₂)

/-- Modelled from the spec: `n` successive requests for the same arguments to one table
(repeated `getOrCreate` calls with an identical key); the outcome is the table after the last
request and the results of the requests in order. -/
def repeatRequests {Args KeyTy Storage : Type} (K : AttrKind Args KeyTy Storage) :
    Nat → List Storage → Args → Option (List Storage × List (Except String (Nat × Storage)))
  | 0, table, _ => some (table, [])
  | n + 1, table, args =>
    match getOrCreate K table args with
    | none => none
    | some res =>
      match repeatRequests K n res.table args with
      | none => none
      | some (table', results) => some (table', res.result :: results)

/-- The first request for `args` returns a record and allocates at most one; every run of
`n + 1` successive requests for `args` returns that same record each time and ends with the
table that the first request left, so with the same number of records. -/
def IdempotentRequests {Args KeyTy Storage : Type} (K : AttrKind Args KeyTy Storage)
    (table : List Storage) (args : Args) : Prop :=
  ∃ t p r, getOrCreate K table args = some ⟨t, .ok (p, r)⟩ ∧
    (t = table ∨ t = table ++ [K.construct (K.key args)]) ∧
    ∀ n, ∃ tₙ, repeatRequests K (n + 1) table args =
        some (tₙ, List.replicate (n + 1) (.ok (p, r))) ∧
      tₙ.length = t.length

/-- Modelled from the spec: the Context (spec §3), the part of `MLIRContext` that owns the
interning tables of the three SPIR-V attribute kinds, one table per type tag. -/
structure MLIRContext where
  interfaceVarABI : List detail.InterfaceVarABIAttributeStorage
  verCapExt : List detail.VerCapExtAttributeStorage
  targetEnv : List detail.TargetEnvAttributeStorage

/-! ## InterfaceVarABIAttr -/

/-- Modelled from the spec: `InterfaceVarABIAttr::classof` of SPIRVAttributes.h: the attribute
is of the `interface_var_abi` kind. -/
def InterfaceVarABIAttr.classof : Attribute → Bool
  | .interfaceVarABI _ _ _ => true
  | _ => false

/-- Modelled from the spec: `VerCapExtAttr::classof` of SPIRVAttributes.h: the attribute is of
the `vce` kind. -/
def VerCapExtAttr.classof : Attribute → Bool
  | .verCapExt _ _ _ => true
  | _ => false

/-- Modelled from the spec: `TargetEnvAttr::classof` of SPIRVAttributes.h: the attribute is of
the `target_env` kind. -/
def TargetEnvAttr.classof : Attribute → Bool
  | .targetEnv _ _ => true
  | _ => false

/-- Modelled from the spec: `ResourceLimitsAttr::classof` (generated into TargetAndABI.cpp.inc):
the limits value is a dictionary of the exact resource-limits kind. The test on the entries of
the dictionary is the argument `limitsKind`. -/
def ResourceLimitsAttr.classof (limitsKind : List (String × Attribute) → Bool) : Attribute → Bool
  | .dictionary entries => limitsKind entries
  | _ => false

abbrev InterfaceVarABIAttr := Handle InterfaceVarABIAttr.classof
abbrev VerCapExtAttr := Handle VerCapExtAttr.classof
abbrev TargetEnvAttr := Handle TargetEnvAttr.classof
abbrev ResourceLimitsAttr (limitsKind : List (String × Attribute) → Bool) :=
  Handle (ResourceLimitsAttr.classof limitsKind)

namespace InterfaceVarABIAttr

/-- Embeds `InterfaceVarABIAttr::verifyConstructionInvariants`. -/
def verifyConstructionInvariants (E : Enums)
    (descriptorSet binding storageClass : IntegerAttr) : Option LogicalResult :=
  match descriptorSet.getType with
  | none => none
  | some descriptorSetType =>
    if !descriptorSetType.isSignlessIntegerOfWidth 32 then
      some (emitError "expected 32-bit integer for descriptor set")
    else
      match binding.getType with
      | none => none
      | some bindingType =>
        if !bindingType.isSignlessIntegerOfWidth 32 then
          some (emitError "expected 32-bit integer for binding")
        else if storageClass.isNonNull then
          match storageClass.impl.cast IntegerAttr.classof with
          | none => none
          | some storageClassAttr =>
            if storageClassAttr.isNonNull then
              match IntegerAttr.getInt storageClassAttr with
              | none => none
              | some storageClassInt =>
                match symbolizeStorageClass E (toUInt32 storageClassInt) with
                | none => some (emitError "unknown storage class")
                | some _ => some .success
            else some (emitError "expected valid storage class")
        else some .success

/-- The kind `InterfaceVarABIAttr` as seen by the interning table: its key, verifier,
`construct` and `operator==`. -/
def kind (E : Enums) :
    AttrKind (IntegerAttr × IntegerAttr × IntegerAttr)
      detail.InterfaceVarABIAttributeStorage.KeyTy detail.InterfaceVarABIAttributeStorage where
  key := fun args => (args.1.impl, args.2.1.impl, args.2.2.impl)
  verify := fun args => verifyConstructionInvariants E args.1 args.2.1 args.2.2
  construct := detail.InterfaceVarABIAttributeStorage.construct
  equals := detail.InterfaceVarABIAttributeStorage.operator_eq

/-- The handle on a storage record of the kind. -/
def ofStorage (r : detail.InterfaceVarABIAttributeStorage) : InterfaceVarABIAttr :=
  ⟨.interfaceVarABI r.descriptorSet r.binding r.storageClass, rfl⟩

/-- Embeds `getImpl()`; undefined on the null handle. -/
def getImpl (a : InterfaceVarABIAttr) : Option detail.InterfaceVarABIAttributeStorage :=
  match a.impl with
  | .interfaceVarABI descriptorSet binding storageClass =>
    some ⟨descriptorSet, binding, storageClass⟩
  | _ => none

/-- Embeds `InterfaceVarABIAttr::get(IntegerAttr, IntegerAttr, IntegerAttr)`: it asserts that
`descriptorSet` and `binding` are not null and requests the record from the context. -/
def getFromAttrs (E : Enums) (context : MLIRContext)
    (descriptorSet binding storageClass : IntegerAttr) :
    Option (MLIRContext × Except String InterfaceVarABIAttr) :=
  if descriptorSet.isNonNull && binding.isNonNull then
    match getOrCreate (kind E) context.interfaceVarABI (descriptorSet, binding, storageClass) with
    | none => none
    | some ⟨table, .error diagnostic⟩ =>
      some ({ context with interfaceVarABI := table }, .error diagnostic)
    | some ⟨table, .ok (_, r)⟩ =>
      some ({ context with interfaceVarABI := table }, .ok (ofStorage r))
  else none

/-- Embeds `InterfaceVarABIAttr::get(uint32_t, uint32_t, Optional<StorageClass>, MLIRContext *)`. -/
def get (E : Enums) (descriptorSet binding : Nat) (storageClass : Option StorageClass)
    (context : MLIRContext) : Option (MLIRContext × Except String InterfaceVarABIAttr) :=
  let descriptorSetAttr := Builder.getI32IntegerAttr (toInt32 descriptorSet)
  let bindingAttr := Builder.getI32IntegerAttr (toInt32 binding)
  let storageClassAttr :=
    match storageClass with
    | some sc => Builder.getI32IntegerAttr (toInt32 (truncUInt32 sc.value))
    | none => Handle.null IntegerAttr.classof
  getFromAttrs E context descriptorSetAttr bindingAttr storageClassAttr

/-- Embeds the storage class attribute that the raw-value `get` builds:
`storageClass ? b.getI32IntegerAttr(static_cast<uint32_t>(*storageClass)) : IntegerAttr()`. -/
def storageClassAttrOf (storageClass : Option StorageClass) : IntegerAttr :=
  match storageClass with
  | some sc => Builder.getI32IntegerAttr (toInt32 (truncUInt32 sc.value))
  | none => Handle.null IntegerAttr.classof

/-- Embeds `InterfaceVarABIAttr::getBinding`. -/
def getBinding (a : InterfaceVarABIAttr) : Option Nat := do
  let impl ← a.getImpl
  let attr ← impl.binding.cast IntegerAttr.classof
  let v ← IntegerAttr.getInt attr
  pure (toUInt32 v)

/-- Embeds `InterfaceVarABIAttr::getDescriptorSet`. -/
def getDescriptorSet (a : InterfaceVarABIAttr) : Option Nat := do
  let impl ← a.getImpl
  let attr ← impl.descriptorSet.cast IntegerAttr.classof
  let v ← IntegerAttr.getInt attr
  pure (toUInt32 v)

/-- Embeds `InterfaceVarABIAttr::getStorageClass`; the inner option is the returned
`Optional<spirv::StorageClass>`. -/
def getStorageClass (a : InterfaceVarABIAttr) : Option (Option StorageClass) := do
  let impl ← a.getImpl
  if !impl.storageClass.isNull then
    let attr ← impl.storageClass.cast IntegerAttr.classof
    let value ← IntegerAttr.getValue attr
    let z ← APInt.getZExtValue value
    pure (some ⟨truncUInt32 z⟩)
  else pure none

end InterfaceVarABIAttr

/-! ## VerCapExtAttr -/

/-- Modelled from the spec: `llvm::all_of` of llvm/ADT/STLExtras.h over a range whose test may
hit a precondition violation: the test runs on the elements in order and stops at the first
one it rejects. -/
def all_of {α : Type} (p : α → Option Bool) : List α → Option Bool
  | [] => some true
  | a :: as =>
    match p a with
    | none => none
    | some false => some false
    | some true => all_of p as

namespace VerCapExtAttr

/-- Embeds the test that `verifyConstructionInvariants` runs on each entry of the capability
list. -/
def isKnownCapability (E : Enums) (attr : Attribute) : Option Bool :=
  match attr.dyn_cast IntegerAttr.classof with
  | none => none
  | some intAttr =>
    if intAttr.isNonNull then
      match IntegerAttr.getValue intAttr >>= APInt.getZExtValue with
      | none => none
      | some z => if (symbolizeCapability E (truncUInt32 z)).isSome then some true else some false
    else some false

/-- Embeds the test that `verifyConstructionInvariants` runs on each entry of the extension
list. -/
def isKnownExtension (E : Enums) (attr : Attribute) : Option Bool :=
  match attr.dyn_cast StringAttr.classof with
  | none => none
  | some strAttr =>
    if strAttr.isNonNull then
      match StringAttr.getValue strAttr with
      | none => none
      | some str => if (symbolizeExtension E str).isSome then some true else some false
    else some false

/-- The lookup of a capability entry as the verifier and `cap_iterator` perform it: the entry
is an integer attribute, its zero-extended value is defined (at most 64 bits, as
`getZExtValue` requires), and `symbolizeCapability` returns a member for that value converted
to its `uint32_t` parameter. -/
def ResolvesCapability (E : Enums) (attr : Attribute) : Prop :=
  ∃ s : IntegerAttributeStorage, attr = .integer s ∧ s.value < 2 ^ 64 ∧
    ∃ m, symbolizeCapability E (truncUInt32 s.value) = some m

/-- The entry is a string attribute whose text resolves through `symbolizeExtension`. -/
def ResolvesExtension (E : Enums) (attr : Attribute) : Prop :=
  ∃ str : String, attr = .string str ∧ ∃ m, symbolizeExtension E str = some m

/-- Embeds `VerCapExtAttr::verifyConstructionInvariants`. -/
def verifyConstructionInvariants (E : Enums) (version : IntegerAttr)
    (capabilities extensions : ArrayAttr) : Option LogicalResult :=
  match version.getType with
  | none => none
  | some versionType =>
    if !versionType.isSignlessIntegerOfWidth 32 then
      some (emitError "expected 32-bit integer for version")
    else
      match capabilities.getValue >>= all_of (isKnownCapability E) with
      | none => none
      | some false => some (emitError "unknown capability in capability list")
      | some true =>
        match extensions.getValue >>= all_of (isKnownExtension E) with
        | none => none
        | some false => some (emitError "unknown extension in extension list")
        | some true => some .success

/-- The kind `VerCapExtAttr` as seen by the interning table: its key, verifier, `construct`
and `operator==`. -/
def kind (E : Enums) :
    AttrKind (IntegerAttr × ArrayAttr × ArrayAttr)
      detail.VerCapExtAttributeStorage.KeyTy detail.VerCapExtAttributeStorage where
  key := fun args => (args.1.impl, args.2.1.impl, args.2.2.impl)
  verify := fun args => verifyConstructionInvariants E args.1 args.2.1 args.2.2
  construct := detail.VerCapExtAttributeStorage.construct
  equals := detail.VerCapExtAttributeStorage.operator_eq

/-- The handle on a storage record of the kind. -/
def ofStorage (r : detail.VerCapExtAttributeStorage) : VerCapExtAttr :=
  ⟨.verCapExt r.version r.capabilities r.extensions, rfl⟩

/-- Embeds `getImpl()`; undefined on the null handle. -/
def getImpl (a : VerCapExtAttr) : Option detail.VerCapExtAttributeStorage :=
  match a.impl with
  | .verCapExt version capabilities extensions => some ⟨version, capabilities, extensions⟩
  | _ => none

/-- Embeds `VerCapExtAttr::get(IntegerAttr, ArrayAttr, ArrayAttr)`: it asserts that the three
arguments are not null and requests the record from the context. -/
def getFromAttrs (E : Enums) (context : MLIRContext) (version : IntegerAttr)
    (capabilities extensions : ArrayAttr) : Option (MLIRContext × Except String VerCapExtAttr) :=
  if version.isNonNull && capabilities.isNonNull && extensions.isNonNull then
    match getOrCreate (kind E) context.verCapExt (version, capabilities, extensions) with
    | none => none
    | some ⟨table, .error diagnostic⟩ =>
      some ({ context with verCapExt := table }, .error diagnostic)
    | some ⟨table, .ok (_, r)⟩ =>
      some ({ context with verCapExt := table }, .ok (ofStorage r))
  else none

/-- Embeds `VerCapExtAttr::get(Version, ArrayRef<Capability>, ArrayRef<Extension>,
MLIRContext *)`. -/
def get (E : Enums) (version : Version) (capabilities : List Capability)
    (extensions : List Extension) (context : MLIRContext) :
    Option (MLIRContext × Except String VerCapExtAttr) :=
  let versionAttr := Builder.getI32IntegerAttr (toInt32 (truncUInt32 version.value))
  let capAttrs : List Attribute :=
    capabilities.map fun cap => (Builder.getI32IntegerAttr (toInt32 (truncUInt32 cap.value))).impl
  let extAttrs : List Attribute :=
    extensions.map fun ext => (Builder.getStringAttr (stringifyExtension E ext)).impl
  getFromAttrs E context versionAttr (Builder.getArrayAttr capAttrs) (Builder.getArrayAttr extAttrs)

/-- Embeds `VerCapExtAttr::getVersion`. -/
def getVersion (a : VerCapExtAttr) : Option Version := do
  let impl ← a.getImpl
  let attr ← impl.version.cast IntegerAttr.classof
  let value ← IntegerAttr.getValue attr
  let z ← APInt.getZExtValue value
  pure ⟨truncUInt32 z⟩

/-- Embeds `VerCapExtAttr::getExtensionsAttr`. -/
def getExtensionsAttr (a : VerCapExtAttr) : Option ArrayAttr := do
  let impl ← a.getImpl
  impl.extensions.cast ArrayAttr.classof

/-- Embeds the mapping function of `ext_iterator`; dereferencing an empty lookup result is
undefined. -/
def ext_iterator (E : Enums) (attr : Attribute) : Option Extension := do
  let strAttr ← attr.cast StringAttr.classof
  let str ← StringAttr.getValue strAttr
  symbolizeExtension E str

/-- Embeds `VerCapExtAttr::getExtensions`, with the lazy range read out from begin to end. -/
def getExtensions (E : Enums) (a : VerCapExtAttr) : Option (List Extension) := do
  let attr ← a.getExtensionsAttr
  let range ← ArrayAttr.getValue attr
  range.mapM (ext_iterator E)

/-- Embeds `VerCapExtAttr::getCapabilitiesAttr`. -/
def getCapabilitiesAttr (a : VerCapExtAttr) : Option ArrayAttr := do
  let impl ← a.getImpl
  impl.capabilities.cast ArrayAttr.classof

/-- Embeds the mapping function of `cap_iterator`; dereferencing an empty lookup result is
undefined. -/
def cap_iterator (E : Enums) (attr : Attribute) : Option Capability := do
  let intAttr ← attr.cast IntegerAttr.classof
  let value ← IntegerAttr.getValue intAttr
  let z ← APInt.getZExtValue value
  symbolizeCapability E (truncUInt32 z)

/-- Embeds `VerCapExtAttr::getCapabilities`, with the lazy range read out from begin to end. -/
def getCapabilities (E : Enums) (a : VerCapExtAttr) : Option (List Capability) := do
  let attr ← a.getCapabilitiesAttr
  let range ← ArrayAttr.getValue attr
  range.mapM (cap_iterator E)

end VerCapExtAttr

/-! ## TargetEnvAttr -/

namespace TargetEnvAttr

/-- Embeds `TargetEnvAttr::verifyConstructionInvariants`. -/
def verifyConstructionInvariants (limitsKind : List (String × Attribute) → Bool)
    (_triple : VerCapExtAttr) (limits : DictionaryAttr) : Option LogicalResult :=
  match limits.impl.isa (ResourceLimitsAttr.classof limitsKind) with
  | none => none
  | some isLimits =>
    if !isLimits then some (emitError "expected spirv::ResourceLimitsAttr for limits")
    else some .success

/-- The kind `TargetEnvAttr` as seen by the interning table: its key, verifier, `construct`
and `operator==`. -/
def kind (limitsKind : List (String × Attribute) → Bool) :
    AttrKind (VerCapExtAttr × DictionaryAttr)
      detail.TargetEnvAttributeStorage.KeyTy detail.TargetEnvAttributeStorage where
  key := fun args => (args.1.impl, args.2.impl)
  verify := fun args => verifyConstructionInvariants limitsKind args.1 args.2
  construct := detail.TargetEnvAttributeStorage.construct
  equals := detail.TargetEnvAttributeStorage.operator_eq

/-- The handle on a storage record of the kind. -/
def ofStorage (r : detail.TargetEnvAttributeStorage) : TargetEnvAttr :=
  ⟨.targetEnv r.triple r.limits, rfl⟩

/-- Embeds `getImpl()`; undefined on the null handle. -/
def getImpl (a : TargetEnvAttr) : Option detail.TargetEnvAttributeStorage :=
  match a.impl with
  | .targetEnv triple limits => some ⟨triple, limits⟩
  | _ => none

/-- Embeds `TargetEnvAttr::get(VerCapExtAttr, DictionaryAttr)`: it asserts that the two
arguments are not null and requests the record from the context. -/
def get (limitsKind : List (String × Attribute) → Bool) (context : MLIRContext)
    (triple : VerCapExtAttr) (limits : DictionaryAttr) :
    Option (MLIRContext × Except String TargetEnvAttr) :=
  if triple.isNonNull && limits.isNonNull then
    match getOrCreate (kind limitsKind) context.targetEnv (triple, limits) with
    | none => none
    | some ⟨table, .error diagnostic⟩ =>
      some ({ context with targetEnv := table }, .error diagnostic)
    | some ⟨table, .ok (_, r)⟩ =>
      some ({ context with targetEnv := table }, .ok (ofStorage r))
  else none

/-- Embeds `TargetEnvAttr::getTripleAttr`. -/
def getTripleAttr (a : TargetEnvAttr) : Option VerCapExtAttr := do
  let impl ← a.getImpl
  impl.triple.cast VerCapExtAttr.classof

/-- Embeds `TargetEnvAttr::getVersion`. -/
def getVersion (a : TargetEnvAttr) : Option Version := do
  let triple ← a.getTripleAttr
  VerCapExtAttr.getVersion triple

/-- Embeds `TargetEnvAttr::getExtensions`. -/
def getExtensions (E : Enums) (a : TargetEnvAttr) : Option (List Extension) := do
  let triple ← a.getTripleAttr
  VerCapExtAttr.getExtensions E triple

/-- Embeds `TargetEnvAttr::getExtensionsAttr`. -/
def getExtensionsAttr (a : TargetEnvAttr) : Option ArrayAttr := do
  let triple ← a.getTripleAttr
  VerCapExtAttr.getExtensionsAttr triple

/-- Embeds `TargetEnvAttr::getCapabilities`. -/
def getCapabilities (E : Enums) (a : TargetEnvAttr) : Option (List Capability) := do
  let triple ← a.getTripleAttr
  VerCapExtAttr.getCapabilities E triple

/-- Embeds `TargetEnvAttr::getCapabilitiesAttr`. -/
def getCapabilitiesAttr (a : TargetEnvAttr) : Option ArrayAttr := do
  let triple ← a.getTripleAttr
  VerCapExtAttr.getCapabilitiesAttr triple

/-- Embeds `TargetEnvAttr::getResourceLimits`. -/
def getResourceLimits (limitsKind : List (String × Attribute) → Bool) (a : TargetEnvAttr) :
    Option (ResourceLimitsAttr limitsKind) := do
  let impl ← a.getImpl
  impl.limits.cast (ResourceLimitsAttr.classof limitsKind)

end TargetEnvAttr

/-! ## Contexts that requests produce -/

/-- The states of a context within one session: the context with empty tables, and every
context that a request for an attribute of one of the three kinds leaves behind. -/
inductive MLIRContext.Reachable (E : Enums) (limitsKind : List (String × Attribute) → Bool) :
    MLIRContext → Prop where
  | empty : Reachable E limitsKind ⟨[], [], []⟩
  | interfaceVarABI {context context' : MLIRContext}
      {result : Except String InterfaceVarABIAttr} (descriptorSet binding storageClass : IntegerAttr) :
      Reachable E limitsKind context →
      InterfaceVarABIAttr.getFromAttrs E context descriptorSet binding storageClass =
        some (context', result) →
      Reachable E limitsKind context'
  | verCapExt {context context' : MLIRContext}
      {result : Except String VerCapExtAttr} (version : IntegerAttr)
      (capabilities extensions : ArrayAttr) :
      Reachable E limitsKind context →
      VerCapExtAttr.getFromAttrs E context version capabilities extensions =
        some (context', result) →
      Reachable E limitsKind context'
  | targetEnv {context context' : MLIRContext}
      {result : Except String TargetEnvAttr} (triple : VerCapExtAttr) (limits : DictionaryAttr) :
      Reachable E limitsKind context →
      TargetEnvAttr.get limitsKind context triple limits = some (context', result) →
      Reachable E limitsKind context'

/-- Every record of the table was built from a key that passed verification. -/
def ValidRecords {Args KeyTy Storage : Type} (K : AttrKind Args KeyTy Storage)
    (table : List Storage) : Prop :=
  ∀ r ∈ table, ∃ args, K.verify args = some .success ∧ r = K.construct (K.key args)

/-- The request for `bad` in `context` is rejected with `diagnostic` and leaves the context
exactly as it was, so that the subsequent request for `good` is the request it would have been
without the rejected one, and it returns a record. -/
def RejectedInIsolation {Args α : Type}
    (request : MLIRContext → Args → Option (MLIRContext × Except String α))
    (context : MLIRContext) (bad good : Args) (diagnostic : String) : Prop :=
  ∃ context₁, request context bad = some (context₁, .error diagnostic) ∧ context₁ = context ∧
    request context₁ good = request context good ∧
    ∃ context₂ a, request context₁ good = some (context₂, .ok a)

/-! ## Sample instances of the generated parts -/

/-- Modelled from the spec: a sample of the closed enumerations, with the members the spec
names: storage classes by SPIR-V code (`Input` = 1, `Uniform` = 2, ...), the capabilities
`Matrix` = 0 and `Shader` = 1, the versions `V_1_0` = 0 to `V_1_5` = 5, and three registered
extension names. -/
def sampleEnums : Enums where
  storageClasses := [0, 1, 2, 3, 4, 5, 6, 7, 8, 9, 10, 11, 12, 5349]
  capabilities := [0, 1]
  versions := [0, 1, 2, 3, 4, 5]
  extensions := [(0, "SPV_KHR_16bit_storage"), (1, "SPV_KHR_8bit_storage"),
    (2, "SPV_KHR_storage_buffer_storage_class")]

/-- Modelled from the spec: a sample of the exact resource-limits kind test, which accepts the
dictionaries with exactly the named entries of a resource-limits attribute. -/
def sampleLimitsKind (entries : List (String × Attribute)) : Bool :=
  entries.map Prod.fst ==
    ["max_compute_shared_memory_size", "max_compute_workgroup_invocations",
      "max_compute_workgroup_size"]

/-- A signless 32-bit integer attribute with the given value. -/
def i32 (value : Nat) : IntegerAttr := IntegerAttr.get (.integer 32 .Signless) value

/-- A signless 64-bit integer attribute with the given value. -/
def i64 (value : Nat) : IntegerAttr := IntegerAttr.get (.integer 64 .Signless) value

/-- A signless 8-bit integer attribute with the given value. -/
def i8 (value : Nat) : IntegerAttr := IntegerAttr.get (.integer 8 .Signless) value

/-- Modelled from the spec: a sample of the closed enumerations in which a storage class has
the numeric code 4294967295, the largest `uint32_t`. -/
def highCodeEnums : Enums where
  storageClasses := [2, 4294967295]
  capabilities := [0, 1]
  versions := [0, 1, 2, 3, 4, 5]
  extensions := []

/-- A dictionary of the sample resource-limits kind. -/
def sampleLimits : DictionaryAttr :=
  ⟨.dictionary [("max_compute_shared_memory_size", (i32 16384).impl),
    ("max_compute_workgroup_invocations", (i32 128).impl),
    ("max_compute_workgroup_size", .array [(i32 128).impl, (i32 128).impl, (i32 64).impl])], rfl⟩

/-- A dictionary that is not of the resource-limits kind. -/
def genericDictionary : DictionaryAttr :=
  ⟨.dictionary [("some_entry", .unit)], rfl⟩

/-- The context with empty interning tables. -/
def emptyContext : MLIRContext := ⟨[], [], []⟩

/-- An array attribute with the given elements. -/
def arrayOf (elements : List Attribute) : ArrayAttr := Builder.getArrayAttr elements

/-- The `vce` attribute for version 1.0 with the capability `Shader` and no extension. -/
def sampleTriple : VerCapExtAttr :=
  VerCapExtAttr.ofStorage ⟨(i32 0).impl, (arrayOf [(i32 1).impl]).impl, (arrayOf []).impl⟩

end spirv

end mlir

/-! # Properties -/

namespace mlir

namespace Attribute

mutual
theorem beq_self : ∀ a : Attribute, beq a a = true
  | null => by simp [beq]
  | unit => by simp [beq]
  | integer _ => by simp [beq]
  | string _ => by simp [beq]
  | array l => by simp [beq, beqList_self l]
  | dictionary l => by simp [beq, beqDict_self l]
  | interfaceVarABI a b c => by simp [beq, beq_self a, beq_self b, beq_self c]
  | verCapExt a b c => by simp [beq, beq_self a, beq_self b, beq_self c]
  | targetEnv a b => by simp [beq, beq_self a, beq_self b]
theorem beqList_self : ∀ l : List Attribute, beqList l l = true
  | [] => by simp [beqList]
  | a :: as => by simp [beqList, beq_self a, beqList_self as]
theorem beqDict_self : ∀ l : List (String × Attribute), beqDict l l = true
  | [] => by simp [beqDict]
  | (_, a) :: as => by simp [beqDict, beq_self a, beqDict_self as]
end

mutual
theorem eq_of_beq : ∀ a b : Attribute, beq a b = true → a = b
  | null, b => by cases b <;> simp [beq]
  | unit, b => by cases b <;> simp [beq]
  | integer _, b => by cases b <;> simp [beq]
  | string _, b => by cases b <;> simp [beq]
  | array l, b => by
    cases b <;> simp [beq]
    exact eq_of_beqList l _
  | dictionary l, b => by
    cases b <;> simp [beq]
    exact eq_of_beqDict l _
  | interfaceVarABI a b c, x => by
    cases x <;> simp [beq]
    intro h₁ h₂ h₃
    exact ⟨eq_of_beq a _ h₁, eq_of_beq b _ h₂, eq_of_beq c _ h₃⟩
  | verCapExt a b c, x => by
    cases x <;> simp [beq]
    intro h₁ h₂ h₃
    exact ⟨eq_of_beq a _ h₁, eq_of_beq b _ h₂, eq_of_beq c _ h₃⟩
  | targetEnv a b, x => by
    cases x <;> simp [beq]
    intro h₁ h₂
    exact ⟨eq_of_beq a _ h₁, eq_of_beq b _ h₂⟩
theorem eq_of_beqList : ∀ l m : List Attribute, beqList l m = true → l = m
  | [], m => by cases m <;> simp [beqList]
  | a :: as, m => by
    cases m <;> simp [beqList]
    intro h₁ h₂
    exact ⟨eq_of_beq a _ h₁, eq_of_beqList as _ h₂⟩
theorem eq_of_beqDict : ∀ l m : List (String × Attribute), beqDict l m = true → l = m
  | [], m => by cases m <;> simp [beqDict]
  | (n, a) :: as, m => by
    rcases m with _ | ⟨⟨k, b⟩, bs⟩ <;> simp [beqDict]
    intro h₁ h₂ h₃
    exact ⟨⟨h₁, eq_of_beq a _ h₂⟩, eq_of_beqDict as _ h₃⟩
end

/-- Pointer equality of uniqued attributes is structural equality. -/
theorem beq_iff (a b : Attribute) : (a == b) = true ↔ a = b :=
  ⟨eq_of_beq a b, fun h => h ▸ beq_self a⟩

instance : LawfulBEq Attribute where
  eq_of_beq := fun h => (beq_iff _ _).1 h
  rfl := (beq_iff _ _).2 rfl

end Attribute

namespace spirv

open detail

/-! ## The probe of the interning table -/

section Probe

variable {Storage : Type}

theorem probe_eq_none {p : Storage → Bool} {t : List Storage} :
    probe p t = none ↔ ∀ r ∈ t, p r = false := by
  induction t with
  | nil => simp [probe]
  | cons r rs ih =>
    by_cases hr : p r = true
    · simp [probe, hr]
    · simp [probe, hr, ih]

theorem probe_eq_some {p : Storage → Bool} {t : List Storage} {i : Nat}
    (h : probe p t = some i) : ∃ r, t.get? i = some r ∧ p r = true := by
  induction t generalizing i with
  | nil => simp [probe] at h
  | cons r rs ih =>
    by_cases hr : p r = true
    · simp [probe, hr] at h
      subst h
      exact ⟨r, rfl, hr⟩
    · simp [probe, hr] at h
      obtain ⟨j, hj, rfl⟩ := h
      obtain ⟨r', h₁, h₂⟩ := ih hj
      exact ⟨r', by simpa using h₁, h₂⟩

theorem probe_lt {p : Storage → Bool} {t : List Storage} {i : Nat}
    (h : probe p t = some i) : i < t.length := by
  obtain ⟨r, hr, _⟩ := probe_eq_some h
  exact (List.get?_eq_some.1 hr).1

theorem probe_append_singleton (p : Storage → Bool) (t : List Storage) (x : Storage) :
    probe p (t ++ [x]) =
      match probe p t with
      | some i => some i
      | none => if p x then some t.length else none := by
  induction t with
  | nil => by_cases hx : p x = true <;> simp [probe, hx]
  | cons r rs ih =>
    by_cases hr : p r = true
    · simp [probe, hr]
    · have hr' : p r = false := by simpa using hr
      have hc : probe p (r :: (rs ++ [x])) = (probe p (rs ++ [x])).map (· + 1) := by
        simp [probe, hr']
      have hd : probe p (r :: rs) = (probe p rs).map (· + 1) := by
        simp [probe, hr']
      rw [List.cons_append, hc, hd, ih]
      cases probe p rs with
      | some i => simp
      | none => by_cases hx : p x = true <;> simp [hx]

end Probe


/-! ## The interning engine -/

section Engine

variable {Args KeyTy Storage : Type} (K : AttrKind Args KeyTy Storage)

theorem getOrCreate_found {table : List Storage} {args : Args} {i : Nat}
    (h : probe (fun r => K.equals r (K.key args)) table = some i) :
    ∃ r, table.get? i = some r ∧ K.equals r (K.key args) = true ∧
      getOrCreate K table args = some ⟨table, .ok (i, r)⟩ := by
  obtain ⟨r, hr, hp⟩ := probe_eq_some h
  exact ⟨r, hr, hp, by simp only [getOrCreate, h, hr]⟩

theorem getOrCreate_created {table : List Storage} {args : Args}
    (h : probe (fun r => K.equals r (K.key args)) table = none)
    (hv : K.verify args = some .success) :
    getOrCreate K table args =
      some ⟨table ++ [K.construct (K.key args)],
        .ok (table.length, K.construct (K.key args))⟩ := by
  simp [getOrCreate, h, hv]

theorem getOrCreate_rejected {table : List Storage} {args : Args} {diagnostic : String}
    (h : probe (fun r => K.equals r (K.key args)) table = none)
    (hv : K.verify args = some (.failure diagnostic)) :
    getOrCreate K table args = some ⟨table, .error diagnostic⟩ := by
  simp [getOrCreate, h, hv]

/-- The identity law of the engine for a kind whose `operator==` compares the key with the
fields that `construct` stored. -/
theorem sameRecord_of_lawful (keyOf : Storage → KeyTy)
    (hEq : ∀ r k, K.equals r k = true ↔ keyOf r = k)
    (hCons : ∀ k, keyOf (K.construct k) = k)
    (table : List Storage) (a₁ a₂ : Args)
    (h₁ : K.verify a₁ = some .success) (h₂ : K.verify a₂ = some .success) :
    SameRecordIffEqualKeys K table a₁ a₂ := by
  unfold SameRecordIffEqualKeys
  cases hp₁ : probe (fun r => K.equals r (K.key a₁)) table with
  | some i =>
    obtain ⟨r, hr, hre, hg⟩ := getOrCreate_found K hp₁
    cases hp₂ : probe (fun r => K.equals r (K.key a₂)) table with
    | some j =>
      obtain ⟨r', hr', hre', hg'⟩ := getOrCreate_found K hp₂
      refine ⟨table, i, r, table, j, r', hg, hg', ?_, ?_⟩
      · intro hij
        subst hij
        have : r = r' := Option.some.inj (hr.symm.trans hr')
        subst this
        exact ((hEq _ _).1 hre).symm.trans ((hEq _ _).1 hre')
      · intro hk
        rw [hk, hp₂] at hp₁
        exact (Option.some.inj hp₁).symm
    | none =>
      refine ⟨table, i, r, _, _, _, hg, getOrCreate_created K hp₂ h₂, ?_, ?_⟩
      · intro hij
        exact absurd (probe_lt hp₁) (by omega)
      · intro hk
        rw [hk, hp₂] at hp₁
        exact absurd hp₁ (by simp)
  | none =>
    refine ⟨table ++ [K.construct (K.key a₁)], table.length, K.construct (K.key a₁), ?_⟩
    have hnew := probe_append_singleton (fun r => K.equals r (K.key a₂)) table
      (K.construct (K.key a₁))
    cases hp₂ : probe (fun r => K.equals r (K.key a₂)) table with
    | some j =>
      rw [hp₂] at hnew
      obtain ⟨r', -, -, hg'⟩ := getOrCreate_found K hnew
      refine ⟨_, j, r', getOrCreate_created K hp₁ h₁, hg', ?_, ?_⟩
      · intro hij
        exact absurd (probe_lt hp₂) (by omega)
      · intro hk
        rw [hk, hp₂] at hp₁
        exact absurd hp₁ (by simp)
    | none =>
      rw [hp₂] at hnew
      by_cases hc : K.equals (K.construct (K.key a₁)) (K.key a₂) = true
      · simp only [hc, if_true] at hnew
        obtain ⟨r', -, -, hg'⟩ := getOrCreate_found K hnew
        refine ⟨_, _, r', getOrCreate_created K hp₁ h₁, hg', ?_, ?_⟩
        · intro _
          exact (hCons _).symm.trans ((hEq _ _).1 hc)
        · intro _
          rfl
      · have hnew' : probe (fun r => K.equals r (K.key a₂))
            (table ++ [K.construct (K.key a₁)]) = none := by
          rw [hnew]; simp [hc]
        refine ⟨_, _, _, getOrCreate_created K hp₁ h₁, getOrCreate_created K hnew' h₂, ?_, ?_⟩
        · intro hij
          simp at hij
        · intro hk
          exact absurd ((hEq _ _).2 ((hCons _).trans hk)) hc

end Engine

/-! ## The storage classes -/

theorem interfaceVarABI_operator_eq_iff
    (r : InterfaceVarABIAttributeStorage) (k : InterfaceVarABIAttributeStorage.KeyTy) :
    r.operator_eq k = true ↔ (r.descriptorSet, r.binding, r.storageClass) = k := by
  obtain ⟨a, b, c⟩ := k
  simp only [InterfaceVarABIAttributeStorage.operator_eq, Bool.and_eq_true, beq_iff_eq,
    Prod.mk.injEq]
  constructor
  · rintro ⟨⟨h₁, h₂⟩, h₃⟩
    exact ⟨h₁.symm, h₂.symm, h₃.symm⟩
  · rintro ⟨h₁, h₂, h₃⟩
    exact ⟨⟨h₁.symm, h₂.symm⟩, h₃.symm⟩

theorem verCapExt_operator_eq_iff
    (r : VerCapExtAttributeStorage) (k : VerCapExtAttributeStorage.KeyTy) :
    r.operator_eq k = true ↔ (r.version, r.capabilities, r.extensions) = k := by
  obtain ⟨a, b, c⟩ := k
  simp only [VerCapExtAttributeStorage.operator_eq, Bool.and_eq_true, beq_iff_eq,
    Prod.mk.injEq]
  constructor
  · rintro ⟨⟨h₁, h₂⟩, h₃⟩
    exact ⟨h₁.symm, h₂.symm, h₃.symm⟩
  · rintro ⟨h₁, h₂, h₃⟩
    exact ⟨⟨h₁.symm, h₂.symm⟩, h₃.symm⟩

theorem targetEnv_operator_eq_iff
    (r : TargetEnvAttributeStorage) (k : TargetEnvAttributeStorage.KeyTy) :
    r.operator_eq k = true ↔ (r.triple, r.limits) = k := by
  obtain ⟨a, b⟩ := k
  simp only [TargetEnvAttributeStorage.operator_eq, Bool.and_eq_true, beq_iff_eq,
    Prod.mk.injEq]
  constructor
  · rintro ⟨h₁, h₂⟩
    exact ⟨h₁.symm, h₂.symm⟩
  · rintro ⟨h₁, h₂⟩
    exact ⟨h₁.symm, h₂.symm⟩


/-! ## Identity of records -/

/-- C1 (identity law). For each of the three kinds the storage built by `construct` from a key
`k₁` satisfies `operator==` against a key `k₂` exactly when every component of `k₁` equals the
corresponding component of `k₂`; and two successive requests for valid keys in one context
return the same record exactly when the keys are equal. -/
theorem identity_law (E : Enums) (limitsKind : List (String × Attribute) → Bool)
    (context : MLIRContext)
    (i₁ i₂ : IntegerAttr × IntegerAttr × IntegerAttr)
    (v₁ v₂ : IntegerAttr × ArrayAttr × ArrayAttr)
    (e₁ e₂ : VerCapExtAttr × DictionaryAttr)
    (hi₁ : InterfaceVarABIAttr.verifyConstructionInvariants E i₁.1 i₁.2.1 i₁.2.2 = some .success)
    (hi₂ : InterfaceVarABIAttr.verifyConstructionInvariants E i₂.1 i₂.2.1 i₂.2.2 = some .success)
    (hv₁ : VerCapExtAttr.verifyConstructionInvariants E v₁.1 v₁.2.1 v₁.2.2 = some .success)
    (hv₂ : VerCapExtAttr.verifyConstructionInvariants E v₂.1 v₂.2.1 v₂.2.2 = some .success)
    (he₁ : TargetEnvAttr.verifyConstructionInvariants limitsKind e₁.1 e₁.2 = some .success)
    (he₂ : TargetEnvAttr.verifyConstructionInvariants limitsKind e₂.1 e₂.2 = some .success) :
    ((∀ k₁ k₂ : InterfaceVarABIAttributeStorage.KeyTy,
        (InterfaceVarABIAttributeStorage.construct k₁).operator_eq k₂ = true ↔
          k₁.1 = k₂.1 ∧ k₁.2.1 = k₂.2.1 ∧ k₁.2.2 = k₂.2.2) ∧
      SameRecordIffEqualKeys (InterfaceVarABIAttr.kind E) context.interfaceVarABI i₁ i₂) ∧
    ((∀ k₁ k₂ : VerCapExtAttributeStorage.KeyTy,
        (VerCapExtAttributeStorage.construct k₁).operator_eq k₂ = true ↔
          k₁.1 = k₂.1 ∧ k₁.2.1 = k₂.2.1 ∧ k₁.2.2 = k₂.2.2) ∧
      SameRecordIffEqualKeys (VerCapExtAttr.kind E) context.verCapExt v₁ v₂) ∧
    ((∀ k₁ k₂ : TargetEnvAttributeStorage.KeyTy,
        (TargetEnvAttributeStorage.construct k₁).operator_eq k₂ = true ↔
          k₁.1 = k₂.1 ∧ k₁.2 = k₂.2) ∧
      SameRecordIffEqualKeys (TargetEnvAttr.kind limitsKind) context.targetEnv e₁ e₂) := by
  refine ⟨⟨?_, ?_⟩, ⟨?_, ?_⟩, ⟨?_, ?_⟩⟩
  · rintro ⟨a, b, c⟩ ⟨x, y, z⟩
    rw [interfaceVarABI_operator_eq_iff]
    simp [InterfaceVarABIAttributeStorage.construct]
  · exact sameRecord_of_lawful (InterfaceVarABIAttr.kind E)
      (fun r => (r.descriptorSet, r.binding, r.storageClass))
      interfaceVarABI_operator_eq_iff (fun _ => rfl) _ i₁ i₂ hi₁ hi₂
  · rintro ⟨a, b, c⟩ ⟨x, y, z⟩
    rw [verCapExt_operator_eq_iff]
    simp [VerCapExtAttributeStorage.construct]
  · exact sameRecord_of_lawful (VerCapExtAttr.kind E)
      (fun r => (r.version, r.capabilities, r.extensions))
      verCapExt_operator_eq_iff (fun _ => rfl) _ v₁ v₂ hv₁ hv₂
  · rintro ⟨a, b⟩ ⟨x, y⟩
    rw [targetEnv_operator_eq_iff]
    simp [TargetEnvAttributeStorage.construct]
  · exact sameRecord_of_lawful (TargetEnvAttr.kind limitsKind)
      (fun r => (r.triple, r.limits))
      targetEnv_operator_eq_iff (fun _ => rfl) _ e₁ e₂ he₁ he₂

/-- The identity law at concrete keys: two interface variable ABI keys that differ in the
storage class, two equal `vce` keys, and two equal target environment keys. -/
theorem identity_law_witness :
    InterfaceVarABIAttr.verifyConstructionInvariants sampleEnums (i32 2) (i32 1) (i32 2) =
      some .success ∧
    InterfaceVarABIAttr.verifyConstructionInvariants sampleEnums (i32 2) (i32 1)
      (Handle.null IntegerAttr.classof) = some .success ∧
    VerCapExtAttr.verifyConstructionInvariants sampleEnums (i32 0) (arrayOf [(i32 1).impl])
      (arrayOf []) = some .success ∧
    TargetEnvAttr.verifyConstructionInvariants sampleLimitsKind sampleTriple sampleLimits =
      some .success ∧
    SameRecordIffEqualKeys (InterfaceVarABIAttr.kind sampleEnums) [] (i32 2, i32 1, i32 2)
      (i32 2, i32 1, Handle.null IntegerAttr.classof) ∧
    SameRecordIffEqualKeys (VerCapExtAttr.kind sampleEnums) []
      (i32 0, arrayOf [(i32 1).impl], arrayOf []) (i32 0, arrayOf [(i32 1).impl], arrayOf []) ∧
    SameRecordIffEqualKeys (TargetEnvAttr.kind sampleLimitsKind) []
      (sampleTriple, sampleLimits) (sampleTriple, sampleLimits) :=
  have h := identity_law sampleEnums sampleLimitsKind emptyContext
    (i32 2, i32 1, i32 2) (i32 2, i32 1, Handle.null IntegerAttr.classof)
    (i32 0, arrayOf [(i32 1).impl], arrayOf []) (i32 0, arrayOf [(i32 1).impl], arrayOf [])
    (sampleTriple, sampleLimits) (sampleTriple, sampleLimits)
    (by decide) (by decide) (by decide) (by decide) (by decide) (by decide)
  ⟨by decide, by decide, by decide, by decide, h.1.2, h.2.1.2, h.2.2.2⟩


/-! ## The construction verifiers -/

theorem all_of_eq_true_iff {α : Type} (p : α → Option Bool) (l : List α) :
    all_of p l = some true ↔ ∀ a ∈ l, p a = some true := by
  induction l with
  | nil => simp [all_of]
  | cons a as ih =>
    rcases h : p a with _ | _ | _ <;> simp [all_of, h, ih]

theorem isKnownCapability_iff (E : Enums) (attr : Attribute) :
    VerCapExtAttr.isKnownCapability E attr = some true ↔
      VerCapExtAttr.ResolvesCapability E attr := by
  unfold VerCapExtAttr.ResolvesCapability
  cases attr with
  | integer s =>
    have h64 : (2 : Nat) ^ 64 = 18446744073709551616 := by norm_num
    by_cases hz : s.value < 18446744073709551616
    · cases hm : symbolizeCapability E (truncUInt32 s.value) <;>
        simp [VerCapExtAttr.isKnownCapability, Attribute.dyn_cast, Attribute.isNull,
          IntegerAttr.classof, Handle.isNonNull, IntegerAttr.getValue, APInt.getZExtValue,
          hz, hm]
    · simp [VerCapExtAttr.isKnownCapability, Attribute.dyn_cast, Attribute.isNull,
        IntegerAttr.classof, Handle.isNonNull, IntegerAttr.getValue, APInt.getZExtValue, hz]
  | _ =>
    simp [VerCapExtAttr.isKnownCapability, Attribute.dyn_cast, Attribute.isNull,
      IntegerAttr.classof, Handle.isNonNull, Handle.null]

theorem isKnownExtension_iff (E : Enums) (attr : Attribute) :
    VerCapExtAttr.isKnownExtension E attr = some true ↔
      VerCapExtAttr.ResolvesExtension E attr := by
  unfold VerCapExtAttr.ResolvesExtension
  cases attr with
  | string str =>
    cases hm : symbolizeExtension E str <;>
      simp [VerCapExtAttr.isKnownExtension, Attribute.dyn_cast, Attribute.isNull,
        StringAttr.classof, Handle.isNonNull, StringAttr.getValue, hm]
  | _ =>
    simp [VerCapExtAttr.isKnownExtension, Attribute.dyn_cast, Attribute.isNull,
      StringAttr.classof, Handle.isNonNull, Handle.null]

theorem capabilities_all_of_iff (E : Enums) (capabilities : ArrayAttr) :
    (capabilities.getValue >>= all_of (VerCapExtAttr.isKnownCapability E)) = some true ↔
      ∃ caps, capabilities.getValue = some caps ∧
        ∀ a ∈ caps, VerCapExtAttr.ResolvesCapability E a := by
  cases capabilities.getValue with
  | none => simp
  | some caps => simp [all_of_eq_true_iff, isKnownCapability_iff]

theorem extensions_all_of_iff (E : Enums) (extensions : ArrayAttr) :
    (extensions.getValue >>= all_of (VerCapExtAttr.isKnownExtension E)) = some true ↔
      ∃ exts, extensions.getValue = some exts ∧
        ∀ a ∈ exts, VerCapExtAttr.ResolvesExtension E a := by
  cases extensions.getValue with
  | none => simp
  | some exts => simp [all_of_eq_true_iff, isKnownExtension_iff]

/-- Characterisation of the keys that `VerCapExtAttr::verifyConstructionInvariants` accepts. -/
theorem verCapExt_verify_success_iff (E : Enums) (version : IntegerAttr)
    (capabilities extensions : ArrayAttr) :
    VerCapExtAttr.verifyConstructionInvariants E version capabilities extensions =
        some .success ↔
      (∃ t, version.getType = some t ∧ t.isSignlessIntegerOfWidth 32 = true) ∧
      (∃ caps, capabilities.getValue = some caps ∧
        ∀ a ∈ caps, VerCapExtAttr.ResolvesCapability E a) ∧
      (∃ exts, extensions.getValue = some exts ∧
        ∀ a ∈ exts, VerCapExtAttr.ResolvesExtension E a) := by
  rw [← capabilities_all_of_iff, ← extensions_all_of_iff]
  unfold VerCapExtAttr.verifyConstructionInvariants
  generalize (capabilities.getValue >>= all_of (VerCapExtAttr.isKnownCapability E)) = c
  generalize (extensions.getValue >>= all_of (VerCapExtAttr.isKnownExtension E)) = x
  cases version.getType with
  | none => simp
  | some t =>
    by_cases h32 : t.isSignlessIntegerOfWidth 32 = true
    · rcases c with _ | _ | _ <;> rcases x with _ | _ | _ <;> simp [h32, emitError]
    · simp [h32, emitError]

/-- C4. For every triple and every limits dictionary, the verifier of `TargetEnvAttr` succeeds
exactly when the dictionary is of the resource-limits kind, it fails with
"expected spirv::ResourceLimitsAttr for limits" exactly when the dictionary is of any other
kind, and the outcome does not depend on the triple. -/
theorem targetEnv_verify_iff (limitsKind : List (String × Attribute) → Bool)
    (triple : VerCapExtAttr) (entries : List (String × Attribute)) :
    (TargetEnvAttr.verifyConstructionInvariants limitsKind triple ⟨.dictionary entries, rfl⟩ =
        some .success ↔
      ResourceLimitsAttr.classof limitsKind (.dictionary entries) = true) ∧
    (TargetEnvAttr.verifyConstructionInvariants limitsKind triple ⟨.dictionary entries, rfl⟩ =
        some (.failure "expected spirv::ResourceLimitsAttr for limits") ↔
      ResourceLimitsAttr.classof limitsKind (.dictionary entries) = false) ∧
    (∀ triple' : VerCapExtAttr,
      TargetEnvAttr.verifyConstructionInvariants limitsKind triple' ⟨.dictionary entries, rfl⟩ =
        TargetEnvAttr.verifyConstructionInvariants limitsKind triple
          ⟨.dictionary entries, rfl⟩) := by
  cases h : limitsKind entries <;>
    simp [TargetEnvAttr.verifyConstructionInvariants, Attribute.isa, Attribute.isNull,
      ResourceLimitsAttr.classof, emitError, h]


/-! ## Integer attributes built from raw values -/

theorem integerAttributeStorage_ext {a b : IntegerAttributeStorage} (ht : a.type = b.type)
    (hv : a.value = b.value) : a = b := by
  obtain ⟨t, v, h⟩ := a
  obtain ⟨t', v', h'⟩ := b
  simp only at ht hv
  subst ht hv
  rfl

theorem handle_ext {classof : Attribute → Bool} {a b : Handle classof} (h : a.impl = b.impl) :
    a = b := by
  obtain ⟨x, hx⟩ := a
  obtain ⟨y, hy⟩ := b
  simp only at h
  subst h
  rfl

theorem toUInt32_toInt32 (n : Nat) : toUInt32 (toInt32 n) = n % 2 ^ 32 := by
  unfold toUInt32 toInt32
  split <;> omega

/-- The attribute that `getI32IntegerAttr` builds from a `uint32_t` holds its 32 bits. -/
theorem getI32IntegerAttr_toInt32 (n : Nat) : Builder.getI32IntegerAttr (toInt32 n) = i32 n := by
  have hv : ((toInt32 n) % 2 ^ 64).toNat % 2 ^ 32 = n % 2 ^ 32 := by
    unfold toInt32
    split <;> omega
  apply handle_ext
  simp only [Builder.getI32IntegerAttr, i32, IntegerAttr.get, Attribute.integer.injEq]
  exact integerAttributeStorage_ext rfl hv

theorem i32_isNonNull (n : Nat) : (i32 n).isNonNull = true := rfl

theorem i32_getType (n : Nat) : (i32 n).getType = some (.integer 32 .Signless) := rfl

theorem i32_cast (n : Nat) : (i32 n).impl.cast IntegerAttr.classof = some (i32 n) := rfl

theorem i32_getInt (n : Nat) : IntegerAttr.getInt (i32 n) = some (toInt32 n) := by
  have hlt : n % 2 ^ 32 < 2 ^ 32 := Nat.mod_lt _ (by decide)
  simp only [i32, IntegerAttr.get, IntegerAttr.getInt, MlirType.isIndex,
    MlirType.isSignlessInteger, Bool.false_or, if_true, APInt.getSExtValue, APInt.signedValue,
    MlirType.bitWidth, toInt32]
  split <;> split <;> simp <;> omega

theorem i32_getZExtValue (n : Nat) :
    (IntegerAttr.getValue (i32 n) >>= APInt.getZExtValue) = some (n % 2 ^ 32) := by
  have hlt : n % 2 ^ 32 < 2 ^ 32 := Nat.mod_lt _ (by decide)
  show APInt.getZExtValue ⟨32, n % 2 ^ 32⟩ = some (n % 2 ^ 32)
  unfold APInt.getZExtValue
  rw [if_pos (show n % 2 ^ 32 < 2 ^ 64 by omega)]


theorem i32_getValue (n : Nat) : IntegerAttr.getValue (i32 n) = some ⟨32, n % 2 ^ 32⟩ := rfl

theorem getZExtValue_of_lt {w v : Nat} (h : v < 2 ^ 64) :
    APInt.getZExtValue ⟨w, v⟩ = some v := by
  unfold APInt.getZExtValue
  rw [if_pos h]

/-! ## Requests that pass verification -/

section Engine

variable {Args KeyTy Storage : Type} (K : AttrKind Args KeyTy Storage)

/-- A request either finds a record or creates exactly one at the end of the table. -/
theorem getOrCreate_table {table : List Storage} {args : Args} {res : Interned Storage}
    (h : getOrCreate K table args = some res) :
    res.table = table ∨ res.table = table ++ [K.construct (K.key args)] := by
  unfold getOrCreate at h
  split at h
  · split at h
    · cases h; exact Or.inl rfl
    · cases h
  · split at h
    · cases h
    · cases h; exact Or.inl rfl
    · cases h; exact Or.inr rfl

/-- A request for a key that passes verification returns a record, and the record holds the
fields of the key. -/
theorem getOrCreate_of_valid (keyOf : Storage → KeyTy)
    (hEq : ∀ r k, K.equals r k = true ↔ keyOf r = k)
    (hRecon : ∀ r, K.construct (keyOf r) = r)
    (table : List Storage) (args : Args) (hv : K.verify args = some .success) :
    ∃ t p, getOrCreate K table args = some ⟨t, .ok (p, K.construct (K.key args))⟩ := by
  cases hp : probe (fun r => K.equals r (K.key args)) table with
  | some i =>
    obtain ⟨r, -, hre, hg⟩ := getOrCreate_found K hp
    have : r = K.construct (K.key args) := by
      rw [← (hEq _ _).1 hre, hRecon]
    subst this
    exact ⟨_, _, hg⟩
  | none => exact ⟨_, _, getOrCreate_created K hp hv⟩

end Engine

theorem interfaceVarABI_getFromAttrs_of_valid (E : Enums) (context : MLIRContext)
    (descriptorSet binding storageClass : IntegerAttr)
    (hd : descriptorSet.isNonNull = true) (hb : binding.isNonNull = true)
    (hv : InterfaceVarABIAttr.verifyConstructionInvariants E descriptorSet binding storageClass =
      some .success) :
    ∃ context', InterfaceVarABIAttr.getFromAttrs E context descriptorSet binding storageClass =
      some (context', .ok (InterfaceVarABIAttr.ofStorage
        ⟨descriptorSet.impl, binding.impl, storageClass.impl⟩)) := by
  obtain ⟨t, p, hg⟩ := getOrCreate_of_valid (InterfaceVarABIAttr.kind E)
    (fun r => (r.descriptorSet, r.binding, r.storageClass))
    interfaceVarABI_operator_eq_iff (fun _ => rfl) context.interfaceVarABI
    (descriptorSet, binding, storageClass) hv
  refine ⟨{ context with interfaceVarABI := t }, ?_⟩
  simp only [InterfaceVarABIAttr.getFromAttrs, hd, hb, Bool.and_self, if_true, hg]
  rfl

theorem verCapExt_getFromAttrs_of_valid (E : Enums) (context : MLIRContext)
    (version : IntegerAttr) (capabilities extensions : ArrayAttr)
    (hn : version.isNonNull = true) (hc : capabilities.isNonNull = true)
    (he : extensions.isNonNull = true)
    (hv : VerCapExtAttr.verifyConstructionInvariants E version capabilities extensions =
      some .success) :
    ∃ context', VerCapExtAttr.getFromAttrs E context version capabilities extensions =
      some (context', .ok (VerCapExtAttr.ofStorage
        ⟨version.impl, capabilities.impl, extensions.impl⟩)) := by
  obtain ⟨t, p, hg⟩ := getOrCreate_of_valid (VerCapExtAttr.kind E)
    (fun r => (r.version, r.capabilities, r.extensions))
    verCapExt_operator_eq_iff (fun _ => rfl) context.verCapExt
    (version, capabilities, extensions) hv
  refine ⟨{ context with verCapExt := t }, ?_⟩
  simp only [VerCapExtAttr.getFromAttrs, hn, hc, he, Bool.and_self, if_true, hg]
  rfl

theorem targetEnv_get_of_valid (limitsKind : List (String × Attribute) → Bool)
    (context : MLIRContext) (triple : VerCapExtAttr) (limits : DictionaryAttr)
    (ht : triple.isNonNull = true) (hl : limits.isNonNull = true)
    (hv : TargetEnvAttr.verifyConstructionInvariants limitsKind triple limits = some .success) :
    ∃ context', TargetEnvAttr.get limitsKind context triple limits =
      some (context', .ok (TargetEnvAttr.ofStorage ⟨triple.impl, limits.impl⟩)) := by
  obtain ⟨t, p, hg⟩ := getOrCreate_of_valid (TargetEnvAttr.kind limitsKind)
    (fun r => (r.triple, r.limits))
    targetEnv_operator_eq_iff (fun _ => rfl) context.targetEnv (triple, limits) hv
  refine ⟨{ context with targetEnv := t }, ?_⟩
  simp only [TargetEnvAttr.get, ht, hl, Bool.and_self, if_true, hg]
  rfl

/-! ## InterfaceVarABIAttr built from raw values -/

/-- The storage class attribute that `InterfaceVarABIAttr::get` builds from raw values. -/
theorem interfaceVarABI_get_eq (E : Enums) (descriptorSet binding : Nat)
    (storageClass : Option StorageClass) (context : MLIRContext) :
    InterfaceVarABIAttr.get E descriptorSet binding storageClass context =
      InterfaceVarABIAttr.getFromAttrs E context (i32 descriptorSet) (i32 binding)
        (match storageClass with
          | some sc => i32 sc.value
          | none => Handle.null IntegerAttr.classof) := by
  unfold InterfaceVarABIAttr.get
  simp only [getI32IntegerAttr_toInt32]
  cases storageClass with
  | none => rfl
  | some sc =>
    have : i32 (truncUInt32 sc.value) = i32 sc.value := by
      apply handle_ext
      simp only [i32, IntegerAttr.get, Attribute.integer.injEq]
      exact integerAttributeStorage_ext rfl (by simp [truncUInt32, MlirType.bitWidth])
    simp only [this]

theorem interfaceVarABI_verify_raw (E : Enums) (descriptorSet binding : Nat)
    (storageClass : Option StorageClass)
    (hsc : ∀ m, storageClass = some m → E.isStorageClass m ∧ m.value < 2 ^ 32) :
    InterfaceVarABIAttr.verifyConstructionInvariants E (i32 descriptorSet) (i32 binding)
      (match storageClass with
        | some sc => i32 sc.value
        | none => Handle.null IntegerAttr.classof) = some .success := by
  cases storageClass with
  | none => rfl
  | some sc =>
    obtain ⟨hm, hlt⟩ := hsc sc rfl
    have hsym : symbolizeStorageClass E (toUInt32 (toInt32 sc.value)) = some sc := by
      rw [toUInt32_toInt32, Nat.mod_eq_of_lt hlt]
      unfold symbolizeStorageClass
      rw [if_pos (show sc.value ∈ E.storageClasses from hm)]
    simp only [InterfaceVarABIAttr.verifyConstructionInvariants, i32_getType, i32_isNonNull,
      i32_cast, i32_getInt, hsym]
    rfl


theorem interfaceVarABI_getDescriptorSet_i32 (n : Nat) (b sc : Attribute) :
    InterfaceVarABIAttr.getDescriptorSet (InterfaceVarABIAttr.ofStorage ⟨(i32 n).impl, b, sc⟩) =
      some (n % 2 ^ 32) := by
  simp only [InterfaceVarABIAttr.getDescriptorSet, InterfaceVarABIAttr.getImpl,
    InterfaceVarABIAttr.ofStorage, Option.bind_eq_bind, Option.some_bind, i32_cast, i32_getInt,
    toUInt32_toInt32, Option.pure_def]

theorem interfaceVarABI_getBinding_i32 (n : Nat) (d sc : Attribute) :
    InterfaceVarABIAttr.getBinding (InterfaceVarABIAttr.ofStorage ⟨d, (i32 n).impl, sc⟩) =
      some (n % 2 ^ 32) := by
  simp only [InterfaceVarABIAttr.getBinding, InterfaceVarABIAttr.getImpl,
    InterfaceVarABIAttr.ofStorage, Option.bind_eq_bind, Option.some_bind, i32_cast, i32_getInt,
    toUInt32_toInt32, Option.pure_def]

theorem interfaceVarABI_getStorageClass_i32 (n : Nat) (d b : Attribute) :
    InterfaceVarABIAttr.getStorageClass (InterfaceVarABIAttr.ofStorage ⟨d, b, (i32 n).impl⟩) =
      some (some ⟨n % 2 ^ 32⟩) := by
  have hz : APInt.getZExtValue ⟨32, n % 2 ^ 32⟩ = some (n % 2 ^ 32) :=
    getZExtValue_of_lt (by omega)
  have hnull : (i32 n).impl.isNull = false := rfl
  simp only [InterfaceVarABIAttr.getStorageClass, InterfaceVarABIAttr.getImpl,
    InterfaceVarABIAttr.ofStorage, Option.bind_eq_bind, Option.some_bind, hnull, i32_cast,
    i32_getValue, hz, Option.pure_def, truncUInt32, Nat.mod_mod, Bool.not_false, if_true]

theorem interfaceVarABI_getStorageClass_null (d b : Attribute) :
    InterfaceVarABIAttr.getStorageClass (InterfaceVarABIAttr.ofStorage ⟨d, b, .null⟩) =
      some none := rfl

/-- C5 (accessor round trip). For every unsigned 32-bit descriptor set and binding and every
optional storage class, the attribute returned by `InterfaceVarABIAttr::get` gives back the
descriptor set, the binding and the storage class, and its storage class is absent exactly
when none was supplied. -/
theorem interfaceVarABI_accessor_round_trip (E : Enums) (context : MLIRContext)
    (descriptorSet binding : Nat) (storageClass : Option StorageClass)
    (hd : descriptorSet < 2 ^ 32) (hb : binding < 2 ^ 32)
    (hsc : ∀ m, storageClass = some m → E.isStorageClass m ∧ m.value < 2 ^ 32) :
    ∃ context' a,
      InterfaceVarABIAttr.get E descriptorSet binding storageClass context =
        some (context', .ok a) ∧
      a.getDescriptorSet = some descriptorSet ∧
      a.getBinding = some binding ∧
      a.getStorageClass = some storageClass ∧
      (a.getStorageClass = some none ↔ storageClass = none) := by
  have hv := interfaceVarABI_verify_raw E descriptorSet binding storageClass hsc
  rw [interfaceVarABI_get_eq]
  cases storageClass with
  | none =>
    obtain ⟨context', hget⟩ := interfaceVarABI_getFromAttrs_of_valid E context
      (i32 descriptorSet) (i32 binding) (Handle.null IntegerAttr.classof) rfl rfl hv
    refine ⟨context', _, hget, ?_, ?_, ?_⟩
    · rw [interfaceVarABI_getDescriptorSet_i32, Nat.mod_eq_of_lt hd]
    · rw [interfaceVarABI_getBinding_i32, Nat.mod_eq_of_lt hb]
    · exact ⟨rfl, by simp, fun _ => rfl⟩
  | some sc =>
    obtain ⟨context', hget⟩ := interfaceVarABI_getFromAttrs_of_valid E context
      (i32 descriptorSet) (i32 binding) (i32 sc.value) rfl rfl hv
    refine ⟨context', _, hget, ?_, ?_, ?_⟩
    · rw [interfaceVarABI_getDescriptorSet_i32, Nat.mod_eq_of_lt hd]
    · rw [interfaceVarABI_getBinding_i32, Nat.mod_eq_of_lt hb]
    · rw [interfaceVarABI_getStorageClass_i32, Nat.mod_eq_of_lt (hsc sc rfl).2]
      simp

/-- The accessor round trip at descriptor set 2, binding 4294967295 and storage class
`Uniform`. -/
theorem interfaceVarABI_accessor_round_trip_witness :
    ∃ context' a,
      InterfaceVarABIAttr.get sampleEnums 2 4294967295 (some ⟨2⟩) emptyContext =
        some (context', .ok a) ∧
      a.getDescriptorSet = some 2 ∧
      a.getBinding = some 4294967295 ∧
      a.getStorageClass = some (some ⟨2⟩) ∧
      (a.getStorageClass = some none ↔ some (⟨2⟩ : StorageClass) = none) :=
  interfaceVarABI_accessor_round_trip sampleEnums emptyContext 2 4294967295 (some ⟨2⟩)
    (by decide) (by decide)
    (fun m hm => by
      cases hm
      exact ⟨by decide, by decide⟩)


/-! ## Extension names -/

theorem find?_snd_of_mem_nodup {l : List (Nat × String)} (hnd : (l.map Prod.snd).Nodup)
    {p : Nat × String} (hp : p ∈ l) : l.find? (fun q => q.2 == p.2) = some p := by
  induction l with
  | nil => simp at hp
  | cons q qs ih =>
    rw [List.map_cons, List.nodup_cons] at hnd
    rcases List.mem_cons.1 hp with rfl | hmem
    · simp
    · have hne : q.2 ≠ p.2 := by
        intro h
        exact hnd.1 (h ▸ List.mem_map_of_mem Prod.snd hmem)
      rw [List.find?_cons_of_neg _ (by simpa using hne)]
      exact ih hnd.2 hmem

/-- Every member of the extension enumeration is found again from its name. -/
theorem symbolizeExtension_stringifyExtension (E : Enums) (hE : E.WellFormed) (m : Extension)
    (hm : E.isExtension m) : symbolizeExtension E (stringifyExtension E m) = some m := by
  obtain ⟨-, -, -, -, -, hnames⟩ := hE
  unfold Enums.isExtension at hm
  obtain ⟨p, hp, hpm⟩ := List.mem_map.1 hm
  have hsome : (E.extensions.find? (fun q => q.1 == m.value)).isSome = true := by
    rw [List.find?_isSome]
    exact ⟨p, hp, by simp [hpm]⟩
  obtain ⟨q, hq⟩ := Option.isSome_iff_exists.1 hsome
  have hq1 : q.1 = m.value := by simpa using List.find?_some hq
  have hqmem : q ∈ E.extensions := List.mem_of_find?_eq_some hq
  unfold stringifyExtension symbolizeExtension
  rw [hq]
  simp only [find?_snd_of_mem_nodup hnames hqmem, Option.map_some', hq1]

theorem mapM_map_eq_some {α β : Type} (f : β → Option α) (g : α → β) (l : List α)
    (h : ∀ x ∈ l, f (g x) = some x) : (l.map g).mapM f = some l := by
  induction l with
  | nil => rfl
  | cons x xs ih =>
    have hx := h x (List.mem_cons_self _ _)
    have hxs := ih (fun y hy => h y (List.mem_cons_of_mem _ hy))
    rw [List.map_cons, List.mapM_cons, hx, hxs]
    rfl


/-! ## VerCapExtAttr built from raw values -/

theorem i32_truncUInt32 (n : Nat) : i32 (truncUInt32 n) = i32 n := by
  apply handle_ext
  simp only [i32, IntegerAttr.get, Attribute.integer.injEq]
  exact integerAttributeStorage_ext rfl (by simp [truncUInt32, MlirType.bitWidth])

/-- The key that `VerCapExtAttr::get` builds from raw values. -/
theorem verCapExt_get_eq (E : Enums) (version : Version) (capabilities : List Capability)
    (extensions : List Extension) (context : MLIRContext) :
    VerCapExtAttr.get E version capabilities extensions context =
      VerCapExtAttr.getFromAttrs E context (i32 version.value)
        (arrayOf (capabilities.map fun cap => (i32 cap.value).impl))
        (arrayOf (extensions.map fun ext => Attribute.string (stringifyExtension E ext))) := by
  unfold VerCapExtAttr.get
  simp only [getI32IntegerAttr_toInt32, i32_truncUInt32]
  rfl

theorem resolvesCapability_i32 (E : Enums) (hE : E.WellFormed) (c : Capability)
    (hc : E.isCapability c) : VerCapExtAttr.ResolvesCapability E (i32 c.value).impl := by
  have hlt : c.value < 2 ^ 32 := hE.2.1 _ hc
  refine ⟨⟨.integer 32 .Signless, c.value % 2 ^ 32, Nat.mod_lt _ (by decide)⟩, rfl, ?_, c, ?_⟩
  · show c.value % 2 ^ 32 < 2 ^ 64
    omega
  · show symbolizeCapability E (truncUInt32 (c.value % 2 ^ 32)) = some c
    unfold symbolizeCapability truncUInt32
    rw [Nat.mod_mod, Nat.mod_eq_of_lt hlt, if_pos (show c.value ∈ E.capabilities from hc)]

theorem verCapExt_verify_raw (E : Enums) (hE : E.WellFormed) (version : Version)
    (capabilities : List Capability) (extensions : List Extension)
    (hcaps : ∀ c ∈ capabilities, E.isCapability c)
    (hexts : ∀ e ∈ extensions, E.isExtension e) :
    VerCapExtAttr.verifyConstructionInvariants E (i32 version.value)
      (arrayOf (capabilities.map fun cap => (i32 cap.value).impl))
      (arrayOf (extensions.map fun ext => Attribute.string (stringifyExtension E ext))) =
      some .success := by
  rw [verCapExt_verify_success_iff]
  refine ⟨⟨_, rfl, rfl⟩, ⟨_, rfl, ?_⟩, ⟨_, rfl, ?_⟩⟩
  · intro a ha
    obtain ⟨c, hc, rfl⟩ := List.mem_map.1 ha
    exact resolvesCapability_i32 E hE c (hcaps c hc)
  · intro a ha
    obtain ⟨e, he, rfl⟩ := List.mem_map.1 ha
    exact ⟨_, rfl, e, symbolizeExtension_stringifyExtension E hE e (hexts e he)⟩

theorem verCapExt_get_of_members (E : Enums) (hE : E.WellFormed) (context : MLIRContext)
    (version : Version) (capabilities : List Capability) (extensions : List Extension)
    (hcaps : ∀ c ∈ capabilities, E.isCapability c)
    (hexts : ∀ e ∈ extensions, E.isExtension e) :
    ∃ context', VerCapExtAttr.get E version capabilities extensions context =
      some (context', .ok (VerCapExtAttr.ofStorage
        ⟨(i32 version.value).impl,
          .array (capabilities.map fun cap => (i32 cap.value).impl),
          .array (extensions.map fun ext => Attribute.string (stringifyExtension E ext))⟩)) := by
  rw [verCapExt_get_eq]
  exact verCapExt_getFromAttrs_of_valid E context _ _ _ rfl rfl rfl
    (verCapExt_verify_raw E hE version capabilities extensions hcaps hexts)

theorem cap_iterator_i32 (E : Enums) (hE : E.WellFormed) (c : Capability)
    (hc : E.isCapability c) : VerCapExtAttr.cap_iterator E (i32 c.value).impl = some c := by
  have hlt : c.value < 2 ^ 32 := hE.2.1 _ hc
  have hz : APInt.getZExtValue ⟨32, c.value % 2 ^ 32⟩ = some (c.value % 2 ^ 32) :=
    getZExtValue_of_lt (by omega)
  simp only [VerCapExtAttr.cap_iterator, i32_cast, i32_getValue, hz, Option.bind_eq_bind,
    Option.some_bind]
  unfold symbolizeCapability truncUInt32
  rw [Nat.mod_mod, Nat.mod_eq_of_lt hlt, if_pos (show c.value ∈ E.capabilities from hc)]

theorem ext_iterator_string (E : Enums) (hE : E.WellFormed) (e : Extension)
    (he : E.isExtension e) :
    VerCapExtAttr.ext_iterator E (Attribute.string (stringifyExtension E e)) = some e := by
  have hcast : (Attribute.string (stringifyExtension E e)).cast StringAttr.classof =
      some ⟨.string (stringifyExtension E e), rfl⟩ := rfl
  simp only [VerCapExtAttr.ext_iterator, hcast, StringAttr.getValue, Option.bind_eq_bind,
    Option.some_bind]
  exact symbolizeExtension_stringifyExtension E hE e he

/-- C6 (accessor round trip). For every version, every list of capability members and every
list of extension members, the attribute returned by `VerCapExtAttr::get` gives back the
version, and its capabilities are the given list, in the same order. -/
theorem verCapExt_version_capabilities_round_trip (E : Enums) (hE : E.WellFormed)
    (context : MLIRContext) (version : Version) (capabilities : List Capability)
    (extensions : List Extension) (hver : version.value < 2 ^ 32)
    (hcaps : ∀ c ∈ capabilities, E.isCapability c)
    (hexts : ∀ e ∈ extensions, E.isExtension e) :
    ∃ context' a,
      VerCapExtAttr.get E version capabilities extensions context = some (context', .ok a) ∧
      a.getVersion = some version ∧
      a.getCapabilities E = some capabilities := by
  obtain ⟨context', hget⟩ :=
    verCapExt_get_of_members E hE context version capabilities extensions hcaps hexts
  refine ⟨context', _, hget, ?_, ?_⟩
  · have hz : APInt.getZExtValue ⟨32, version.value % 2 ^ 32⟩ = some (version.value % 2 ^ 32) :=
      getZExtValue_of_lt (by omega)
    simp only [VerCapExtAttr.getVersion, VerCapExtAttr.getImpl, VerCapExtAttr.ofStorage,
      Option.bind_eq_bind, Option.some_bind, i32_cast, i32_getValue, hz, Option.pure_def,
      truncUInt32, Nat.mod_mod]
    rw [Nat.mod_eq_of_lt hver]
  · have hcast : ∀ l : List Attribute, (Attribute.array l).cast ArrayAttr.classof =
        some ⟨.array l, rfl⟩ := fun _ => rfl
    simp only [VerCapExtAttr.getCapabilities, VerCapExtAttr.getCapabilitiesAttr,
      VerCapExtAttr.getImpl, VerCapExtAttr.ofStorage, Option.bind_eq_bind, Option.some_bind,
      hcast, ArrayAttr.getValue]
    exact mapM_map_eq_some _ _ _ (fun c hc => cap_iterator_i32 E hE c (hcaps c hc))

/-- The round trip of version 1.0, the capabilities `Shader` and `Matrix`, and one
extension. -/
theorem verCapExt_version_capabilities_round_trip_witness :
    sampleEnums.WellFormed ∧
    ∃ context' a,
      VerCapExtAttr.get sampleEnums ⟨0⟩ [⟨1⟩, ⟨0⟩] [⟨2⟩] emptyContext = some (context', .ok a) ∧
      a.getVersion = some ⟨0⟩ ∧
      a.getCapabilities sampleEnums = some [⟨1⟩, ⟨0⟩] :=
  ⟨by decide,
    verCapExt_version_capabilities_round_trip sampleEnums (by decide) emptyContext ⟨0⟩
      [⟨1⟩, ⟨0⟩] [⟨2⟩] (by decide) (by decide) (by decide)⟩

/-- C10 (extension round trip). Every member of the extension enumeration is found again from
its name by `symbolizeExtension`; consequently the extensions of the attribute returned by
`VerCapExtAttr::get` are the given list of extension members, in the same order. -/
theorem verCapExt_extensions_round_trip (E : Enums) (hE : E.WellFormed)
    (context : MLIRContext) (version : Version) (capabilities : List Capability)
    (extensions : List Extension)
    (hcaps : ∀ c ∈ capabilities, E.isCapability c)
    (hexts : ∀ e ∈ extensions, E.isExtension e) :
    (∀ m : Extension, E.isExtension m →
      symbolizeExtension E (stringifyExtension E m) = some m) ∧
    ∃ context' a,
      VerCapExtAttr.get E version capabilities extensions context = some (context', .ok a) ∧
      a.getExtensions E = some extensions := by
  refine ⟨fun m hm => symbolizeExtension_stringifyExtension E hE m hm, ?_⟩
  obtain ⟨context', hget⟩ :=
    verCapExt_get_of_members E hE context version capabilities extensions hcaps hexts
  refine ⟨context', _, hget, ?_⟩
  have hcast : ∀ l : List Attribute, (Attribute.array l).cast ArrayAttr.classof =
      some ⟨.array l, rfl⟩ := fun _ => rfl
  simp only [VerCapExtAttr.getExtensions, VerCapExtAttr.getExtensionsAttr,
    VerCapExtAttr.getImpl, VerCapExtAttr.ofStorage, Option.bind_eq_bind, Option.some_bind,
    hcast, ArrayAttr.getValue]
  exact mapM_map_eq_some _ _ _ (fun e he => ext_iterator_string E hE e (hexts e he))

/-- The extension round trip for version 1.0 with two extensions given out of table order. -/
theorem verCapExt_extensions_round_trip_witness :
    sampleEnums.WellFormed ∧
    (∀ m : Extension, sampleEnums.isExtension m →
      symbolizeExtension sampleEnums (stringifyExtension sampleEnums m) = some m) ∧
    ∃ context' a,
      VerCapExtAttr.get sampleEnums ⟨0⟩ [⟨1⟩] [⟨2⟩, ⟨0⟩] emptyContext = some (context', .ok a) ∧
      a.getExtensions sampleEnums = some [⟨2⟩, ⟨0⟩] :=
  ⟨by decide,
    verCapExt_extensions_round_trip sampleEnums (by decide) emptyContext ⟨0⟩ [⟨1⟩] [⟨2⟩, ⟨0⟩]
      (by decide) (by decide)⟩


/-! ## TargetEnvAttr -/

theorem cast_impl_of_isNonNull {classof : Attribute → Bool} (h : Handle classof)
    (hn : h.isNonNull = true) : h.impl.cast classof = some h := by
  obtain ⟨impl, hk⟩ := h
  have hc : classof impl = true := by
    simp only [Handle.isNonNull, Bool.not_eq_true'] at hn
    simpa [hn] using hk
  simp only [Attribute.cast, hc, dite_true]

theorem targetEnv_verify_success_iff (limitsKind : List (String × Attribute) → Bool)
    (triple : VerCapExtAttr) (limits : DictionaryAttr) :
    TargetEnvAttr.verifyConstructionInvariants limitsKind triple limits = some .success ↔
      ResourceLimitsAttr.classof limitsKind limits.impl = true := by
  obtain ⟨impl, hk⟩ := limits
  cases impl <;>
    simp [TargetEnvAttr.verifyConstructionInvariants, Attribute.isa, Attribute.isNull,
      ResourceLimitsAttr.classof, emitError]

/-- C7 (delegation). For every `vce` attribute `T` and every resource-limits dictionary `L`,
the attribute `e` returned by `TargetEnvAttr::get(T, L)` has `T` as its triple, every accessor
of `e` for version, capabilities and extensions returns what the same accessor of `T` returns,
and the resource limits of `e` are `L`. -/
theorem targetEnv_delegation (E : Enums) (limitsKind : List (String × Attribute) → Bool)
    (context : MLIRContext) (T : VerCapExtAttr) (entries : List (String × Attribute))
    (hT : T.isNonNull = true) (hL : limitsKind entries = true) :
    ∃ context' e,
      TargetEnvAttr.get limitsKind context T ⟨.dictionary entries, rfl⟩ =
        some (context', .ok e) ∧
      e.getTripleAttr = some T ∧
      e.getVersion = T.getVersion ∧
      e.getCapabilities E = T.getCapabilities E ∧
      e.getExtensions E = T.getExtensions E ∧
      e.getCapabilitiesAttr = T.getCapabilitiesAttr ∧
      e.getExtensionsAttr = T.getExtensionsAttr ∧
      ∃ limits, e.getResourceLimits limitsKind = some limits ∧
        limits.impl = .dictionary entries := by
  have hv : TargetEnvAttr.verifyConstructionInvariants limitsKind T
      ⟨.dictionary entries, rfl⟩ = some .success := by
    rw [targetEnv_verify_success_iff]
    exact hL
  obtain ⟨context', hget⟩ := targetEnv_get_of_valid limitsKind context T
    ⟨.dictionary entries, rfl⟩ hT rfl hv
  have htriple : TargetEnvAttr.getTripleAttr
      (TargetEnvAttr.ofStorage ⟨T.impl, .dictionary entries⟩) = some T := by
    simp only [TargetEnvAttr.getTripleAttr, TargetEnvAttr.getImpl, TargetEnvAttr.ofStorage,
      Option.bind_eq_bind, Option.some_bind]
    exact cast_impl_of_isNonNull T hT
  refine ⟨context', _, hget, htriple, ?_, ?_, ?_, ?_, ?_, ?_⟩
  · simp only [TargetEnvAttr.getVersion, htriple, Option.bind_eq_bind, Option.some_bind]
  · simp only [TargetEnvAttr.getCapabilities, htriple, Option.bind_eq_bind, Option.some_bind]
  · simp only [TargetEnvAttr.getExtensions, htriple, Option.bind_eq_bind, Option.some_bind]
  · simp only [TargetEnvAttr.getCapabilitiesAttr, htriple, Option.bind_eq_bind,
      Option.some_bind]
  · simp only [TargetEnvAttr.getExtensionsAttr, htriple, Option.bind_eq_bind,
      Option.some_bind]
  · have hc : ResourceLimitsAttr.classof limitsKind (.dictionary entries) = true := hL
    refine ⟨⟨.dictionary entries, by simp [hc]⟩, ?_, rfl⟩
    simp only [TargetEnvAttr.getResourceLimits, TargetEnvAttr.getImpl, TargetEnvAttr.ofStorage,
      Option.bind_eq_bind, Option.some_bind, Attribute.cast, hc, dite_true]

/-- Delegation at the sample triple (version 1.0, capability `Shader`) and the sample
resource limits. -/
theorem targetEnv_delegation_witness :
    sampleTriple.isNonNull = true ∧
    ∃ context' e,
      TargetEnvAttr.get sampleLimitsKind emptyContext sampleTriple sampleLimits =
        some (context', .ok e) ∧
      e.getTripleAttr = some sampleTriple ∧
      e.getVersion = some ⟨0⟩ ∧
      e.getCapabilities sampleEnums = some [⟨1⟩] ∧
      e.getExtensions sampleEnums = some [] ∧
      e.getCapabilitiesAttr = sampleTriple.getCapabilitiesAttr ∧
      e.getExtensionsAttr = sampleTriple.getExtensionsAttr ∧
      ∃ limits, e.getResourceLimits sampleLimitsKind = some limits ∧
        limits.impl = sampleLimits.impl :=
  ⟨rfl, targetEnv_delegation sampleEnums sampleLimitsKind emptyContext sampleTriple _ rfl
    (by decide)⟩

/-- C8. For every key on which the verifier of `TargetEnvAttr` succeeds, the limits field of
the record built from the key is of the resource-limits kind, so the cast in
`getResourceLimits` is defined and yields the limits of the key. -/
theorem targetEnv_getResourceLimits_defined (limitsKind : List (String × Attribute) → Bool)
    (triple : VerCapExtAttr) (limits : DictionaryAttr)
    (hv : TargetEnvAttr.verifyConstructionInvariants limitsKind triple limits =
      some .success) :
    ResourceLimitsAttr.classof limitsKind
      (TargetEnvAttributeStorage.construct (triple.impl, limits.impl)).limits = true ∧
    ∃ rl, (TargetEnvAttr.ofStorage
        (TargetEnvAttributeStorage.construct (triple.impl, limits.impl))).getResourceLimits
          limitsKind = some rl ∧
      rl.impl = limits.impl := by
  have hc : ResourceLimitsAttr.classof limitsKind limits.impl = true :=
    (targetEnv_verify_success_iff limitsKind triple limits).1 hv
  refine ⟨hc, ⟨limits.impl, by simp [hc]⟩, ?_, rfl⟩
  simp only [TargetEnvAttr.getResourceLimits, TargetEnvAttr.getImpl, TargetEnvAttr.ofStorage,
    TargetEnvAttributeStorage.construct, Option.bind_eq_bind, Option.some_bind, Attribute.cast,
    hc, dite_true]

/-- The cast in `getResourceLimits` at the sample triple and the sample resource limits. -/
theorem targetEnv_getResourceLimits_defined_witness :
    TargetEnvAttr.verifyConstructionInvariants sampleLimitsKind sampleTriple sampleLimits =
      some .success ∧
    ResourceLimitsAttr.classof sampleLimitsKind
      (TargetEnvAttributeStorage.construct (sampleTriple.impl, sampleLimits.impl)).limits =
        true ∧
    ∃ rl, (TargetEnvAttr.ofStorage (TargetEnvAttributeStorage.construct
        (sampleTriple.impl, sampleLimits.impl))).getResourceLimits sampleLimitsKind = some rl ∧
      rl.impl = sampleLimits.impl :=
  ⟨by decide,
    targetEnv_getResourceLimits_defined sampleLimitsKind sampleTriple sampleLimits (by decide)⟩


/-! ## Rejected requests -/

section Engine

variable {Args KeyTy Storage : Type} (K : AttrKind Args KeyTy Storage)

theorem getOrCreate_table_valid {table : List Storage} {args : Args} {res : Interned Storage}
    (h : getOrCreate K table args = some res) :
    res.table = table ∨
      (K.verify args = some .success ∧ res.table = table ++ [K.construct (K.key args)]) := by
  unfold getOrCreate at h
  split at h
  · split at h
    · cases h; exact Or.inl rfl
    · cases h
  · split at h
    · cases h
    · cases h; exact Or.inl rfl
    · rename_i hv
      cases h; exact Or.inr ⟨hv, rfl⟩

theorem validRecords_step {table : List Storage} {args : Args} {res : Interned Storage}
    (hvalid : ValidRecords K table) (h : getOrCreate K table args = some res) :
    ValidRecords K res.table := by
  rcases getOrCreate_table_valid K h with ht | ⟨hv, ht⟩
  · rw [ht]; exact hvalid
  · rw [ht]
    intro r hr
    rcases List.mem_append.1 hr with hr | hr
    · exact hvalid r hr
    · rw [List.mem_singleton] at hr
      exact ⟨args, hv, hr⟩

/-- In a table whose records were all built from verified keys, a request for a key that
fails verification finds no record, creates none, and surfaces the verification error. -/
theorem getOrCreate_of_rejected (keyOf : Storage → KeyTy)
    (hEq : ∀ r k, K.equals r k = true ↔ keyOf r = k)
    (hCons : ∀ k, keyOf (K.construct k) = k)
    (hinj : ∀ a b, K.key a = K.key b → a = b)
    {table : List Storage} (hvalid : ValidRecords K table) (args : Args) {diagnostic : String}
    (hv : K.verify args = some (.failure diagnostic)) :
    getOrCreate K table args = some ⟨table, .error diagnostic⟩ := by
  apply getOrCreate_rejected K _ hv
  rw [probe_eq_none]
  intro r hr
  obtain ⟨a, ha, rfl⟩ := hvalid r hr
  cases hb : K.equals (K.construct (K.key a)) (K.key args) with
  | false => rfl
  | true =>
    have hk : K.key a = K.key args := (hCons _).symm.trans ((hEq _ _).1 hb)
    rw [hinj a args hk, hv] at ha
    cases ha

end Engine

theorem interfaceVarABI_key_injective (E : Enums) (a b : IntegerAttr × IntegerAttr × IntegerAttr)
    (h : (InterfaceVarABIAttr.kind E).key a = (InterfaceVarABIAttr.kind E).key b) : a = b := by
  obtain ⟨a₁, a₂, a₃⟩ := a
  obtain ⟨b₁, b₂, b₃⟩ := b
  simp only [InterfaceVarABIAttr.kind, Prod.mk.injEq] at h
  rw [handle_ext h.1, handle_ext h.2.1, handle_ext h.2.2]

theorem verCapExt_key_injective (E : Enums) (a b : IntegerAttr × ArrayAttr × ArrayAttr)
    (h : (VerCapExtAttr.kind E).key a = (VerCapExtAttr.kind E).key b) : a = b := by
  obtain ⟨a₁, a₂, a₃⟩ := a
  obtain ⟨b₁, b₂, b₃⟩ := b
  simp only [VerCapExtAttr.kind, Prod.mk.injEq] at h
  rw [handle_ext h.1, handle_ext h.2.1, handle_ext h.2.2]

theorem targetEnv_key_injective (limitsKind : List (String × Attribute) → Bool)
    (a b : VerCapExtAttr × DictionaryAttr)
    (h : (TargetEnvAttr.kind limitsKind).key a = (TargetEnvAttr.kind limitsKind).key b) :
    a = b := by
  obtain ⟨a₁, a₂⟩ := a
  obtain ⟨b₁, b₂⟩ := b
  simp only [TargetEnvAttr.kind, Prod.mk.injEq] at h
  rw [handle_ext h.1, handle_ext h.2]

theorem interfaceVarABI_getFromAttrs_table {E : Enums} {context context' : MLIRContext}
    {descriptorSet binding storageClass : IntegerAttr}
    {result : Except String InterfaceVarABIAttr}
    (h : InterfaceVarABIAttr.getFromAttrs E context descriptorSet binding storageClass =
      some (context', result)) :
    ∃ res, getOrCreate (InterfaceVarABIAttr.kind E) context.interfaceVarABI
        (descriptorSet, binding, storageClass) = some res ∧
      context' = { context with interfaceVarABI := res.table } := by
  unfold InterfaceVarABIAttr.getFromAttrs at h
  split at h
  · split at h
    · cases h
    · rename_i hg
      cases h
      exact ⟨_, hg, rfl⟩
    · rename_i hg
      cases h
      exact ⟨_, hg, rfl⟩
  · cases h

theorem verCapExt_getFromAttrs_table {E : Enums} {context context' : MLIRContext}
    {version : IntegerAttr} {capabilities extensions : ArrayAttr}
    {result : Except String VerCapExtAttr}
    (h : VerCapExtAttr.getFromAttrs E context version capabilities extensions =
      some (context', result)) :
    ∃ res, getOrCreate (VerCapExtAttr.kind E) context.verCapExt
        (version, capabilities, extensions) = some res ∧
      context' = { context with verCapExt := res.table } := by
  unfold VerCapExtAttr.getFromAttrs at h
  split at h
  · split at h
    · cases h
    · rename_i hg
      cases h
      exact ⟨_, hg, rfl⟩
    · rename_i hg
      cases h
      exact ⟨_, hg, rfl⟩
  · cases h

theorem targetEnv_get_table {limitsKind : List (String × Attribute) → Bool}
    {context context' : MLIRContext} {triple : VerCapExtAttr} {limits : DictionaryAttr}
    {result : Except String TargetEnvAttr}
    (h : TargetEnvAttr.get limitsKind context triple limits = some (context', result)) :
    ∃ res, getOrCreate (TargetEnvAttr.kind limitsKind) context.targetEnv (triple, limits) =
        some res ∧
      context' = { context with targetEnv := res.table } := by
  unfold TargetEnvAttr.get at h
  split at h
  · split at h
    · cases h
    · rename_i hg
      cases h
      exact ⟨_, hg, rfl⟩
    · rename_i hg
      cases h
      exact ⟨_, hg, rfl⟩
  · cases h

/-- Every record of a reachable context was built from a key that passed verification. -/
theorem reachable_validRecords {E : Enums} {limitsKind : List (String × Attribute) → Bool}
    {context : MLIRContext} (h : context.Reachable E limitsKind) :
    ValidRecords (InterfaceVarABIAttr.kind E) context.interfaceVarABI ∧
    ValidRecords (VerCapExtAttr.kind E) context.verCapExt ∧
    ValidRecords (TargetEnvAttr.kind limitsKind) context.targetEnv := by
  induction h with
  | empty =>
    exact ⟨fun _ hr => by simp at hr, fun _ hr => by simp at hr, fun _ hr => by simp at hr⟩
  | interfaceVarABI d b s _ hget ih =>
    obtain ⟨res, hg, rfl⟩ := interfaceVarABI_getFromAttrs_table hget
    exact ⟨validRecords_step _ ih.1 hg, ih.2.1, ih.2.2⟩
  | verCapExt v c e _ hget ih =>
    obtain ⟨res, hg, rfl⟩ := verCapExt_getFromAttrs_table hget
    exact ⟨ih.1, validRecords_step _ ih.2.1 hg, ih.2.2⟩
  | targetEnv t l _ hget ih =>
    obtain ⟨res, hg, rfl⟩ := targetEnv_get_table hget
    exact ⟨ih.1, ih.2.1, validRecords_step _ ih.2.2 hg⟩


/-- C9 (rejection isolation). In every context that requests can produce, and for each of the
three kinds, a request for a key on which the verifier of the kind fails returns the
verification error instead of a record and leaves the context exactly as it was; the
subsequent request for a valid key is the request it would have been without the rejected
one, and it returns a record. -/
theorem rejection_isolation (E : Enums) (limitsKind : List (String × Attribute) → Bool)
    (context : MLIRContext) (hreach : context.Reachable E limitsKind) :
    (∀ (bad good : IntegerAttr × IntegerAttr × IntegerAttr) (diagnostic : String),
      bad.1.isNonNull = true → bad.2.1.isNonNull = true →
      good.1.isNonNull = true → good.2.1.isNonNull = true →
      InterfaceVarABIAttr.verifyConstructionInvariants E bad.1 bad.2.1 bad.2.2 =
        some (.failure diagnostic) →
      InterfaceVarABIAttr.verifyConstructionInvariants E good.1 good.2.1 good.2.2 =
        some .success →
      RejectedInIsolation
        (fun c a => InterfaceVarABIAttr.getFromAttrs E c a.1 a.2.1 a.2.2)
        context bad good diagnostic) ∧
    (∀ (bad good : IntegerAttr × ArrayAttr × ArrayAttr) (diagnostic : String),
      bad.1.isNonNull = true → bad.2.1.isNonNull = true → bad.2.2.isNonNull = true →
      good.1.isNonNull = true → good.2.1.isNonNull = true → good.2.2.isNonNull = true →
      VerCapExtAttr.verifyConstructionInvariants E bad.1 bad.2.1 bad.2.2 =
        some (.failure diagnostic) →
      VerCapExtAttr.verifyConstructionInvariants E good.1 good.2.1 good.2.2 =
        some .success →
      RejectedInIsolation
        (fun c a => VerCapExtAttr.getFromAttrs E c a.1 a.2.1 a.2.2)
        context bad good diagnostic) ∧
    (∀ (bad good : VerCapExtAttr × DictionaryAttr) (diagnostic : String),
      bad.1.isNonNull = true → bad.2.isNonNull = true →
      good.1.isNonNull = true → good.2.isNonNull = true →
      TargetEnvAttr.verifyConstructionInvariants limitsKind bad.1 bad.2 =
        some (.failure diagnostic) →
      TargetEnvAttr.verifyConstructionInvariants limitsKind good.1 good.2 = some .success →
      RejectedInIsolation
        (fun c a => TargetEnvAttr.get limitsKind c a.1 a.2)
        context bad good diagnostic) := by
  obtain ⟨hi, hv, ht⟩ := reachable_validRecords hreach
  refine ⟨?_, ?_, ?_⟩
  · intro bad good diagnostic hb₁ hb₂ hg₁ hg₂ hbad hgood
    have hrej := getOrCreate_of_rejected (InterfaceVarABIAttr.kind E)
      (fun r => (r.descriptorSet, r.binding, r.storageClass))
      interfaceVarABI_operator_eq_iff (fun _ => rfl) (interfaceVarABI_key_injective E) hi
      bad hbad
    obtain ⟨context₂, hok⟩ := interfaceVarABI_getFromAttrs_of_valid E context
      good.1 good.2.1 good.2.2 hg₁ hg₂ hgood
    refine ⟨context, ?_, rfl, rfl, context₂, _, hok⟩
    simp only [InterfaceVarABIAttr.getFromAttrs, hb₁, hb₂, Bool.and_self, if_true, hrej]
  · intro bad good diagnostic hb₁ hb₂ hb₃ hg₁ hg₂ hg₃ hbad hgood
    have hrej := getOrCreate_of_rejected (VerCapExtAttr.kind E)
      (fun r => (r.version, r.capabilities, r.extensions))
      verCapExt_operator_eq_iff (fun _ => rfl) (verCapExt_key_injective E) hv
      bad hbad
    obtain ⟨context₂, hok⟩ := verCapExt_getFromAttrs_of_valid E context
      good.1 good.2.1 good.2.2 hg₁ hg₂ hg₃ hgood
    refine ⟨context, ?_, rfl, rfl, context₂, _, hok⟩
    simp only [VerCapExtAttr.getFromAttrs, hb₁, hb₂, hb₃, Bool.and_self, if_true, hrej]
  · intro bad good diagnostic hb₁ hb₂ hg₁ hg₂ hbad hgood
    have hrej := getOrCreate_of_rejected (TargetEnvAttr.kind limitsKind)
      (fun r => (r.triple, r.limits))
      targetEnv_operator_eq_iff (fun _ => rfl) (targetEnv_key_injective limitsKind) ht
      bad hbad
    obtain ⟨context₂, hok⟩ := targetEnv_get_of_valid limitsKind context
      good.1 good.2 hg₁ hg₂ hgood
    refine ⟨context, ?_, rfl, rfl, context₂, _, hok⟩
    simp only [TargetEnvAttr.get, hb₁, hb₂, Bool.and_self, if_true, hrej]

/-- Rejection isolation in the context that holds one interface variable ABI record: the
storage class 9999, the unregistered extension "SPV_KHR_foo" and a dictionary that is not of
the resource-limits kind are rejected in isolation. -/
theorem rejection_isolation_witness :
    MLIRContext.Reachable sampleEnums sampleLimitsKind
      ⟨[⟨(i32 2).impl, (i32 1).impl, (i32 2).impl⟩], [], []⟩ ∧
    RejectedInIsolation
      (fun c (a : IntegerAttr × IntegerAttr × IntegerAttr) =>
        InterfaceVarABIAttr.getFromAttrs sampleEnums c a.1 a.2.1 a.2.2)
      ⟨[⟨(i32 2).impl, (i32 1).impl, (i32 2).impl⟩], [], []⟩
      (i32 2, i32 1, i32 9999) (i32 0, i32 0, Handle.null IntegerAttr.classof)
      "unknown storage class" ∧
    RejectedInIsolation
      (fun c (a : IntegerAttr × ArrayAttr × ArrayAttr) =>
        VerCapExtAttr.getFromAttrs sampleEnums c a.1 a.2.1 a.2.2)
      ⟨[⟨(i32 2).impl, (i32 1).impl, (i32 2).impl⟩], [], []⟩
      (i32 0, arrayOf [(i32 1).impl, (i32 0).impl], arrayOf [.string "SPV_KHR_foo"])
      (i32 0, arrayOf [(i32 1).impl], arrayOf [])
      "unknown extension in extension list" ∧
    RejectedInIsolation
      (fun c (a : VerCapExtAttr × DictionaryAttr) =>
        TargetEnvAttr.get sampleLimitsKind c a.1 a.2)
      ⟨[⟨(i32 2).impl, (i32 1).impl, (i32 2).impl⟩], [], []⟩
      (sampleTriple, genericDictionary) (sampleTriple, sampleLimits)
      "expected spirv::ResourceLimitsAttr for limits" :=
  have hreach : MLIRContext.Reachable sampleEnums sampleLimitsKind
      ⟨[⟨(i32 2).impl, (i32 1).impl, (i32 2).impl⟩], [], []⟩ :=
    @MLIRContext.Reachable.interfaceVarABI sampleEnums sampleLimitsKind ⟨[], [], []⟩ _
      (.ok (InterfaceVarABIAttr.ofStorage ⟨(i32 2).impl, (i32 1).impl, (i32 2).impl⟩))
      (i32 2) (i32 1) (i32 2) MLIRContext.Reachable.empty rfl
  have h := rejection_isolation sampleEnums sampleLimitsKind _ hreach
  ⟨hreach,
    h.1 (i32 2, i32 1, i32 9999) (i32 0, i32 0, Handle.null IntegerAttr.classof) _
      rfl rfl rfl rfl (by decide) (by decide),
    h.2.1 (i32 0, arrayOf [(i32 1).impl, (i32 0).impl], arrayOf [.string "SPV_KHR_foo"])
      (i32 0, arrayOf [(i32 1).impl], arrayOf []) _
      rfl rfl rfl rfl rfl rfl (by decide) (by decide),
    h.2.2 (sampleTriple, genericDictionary) (sampleTriple, sampleLimits) _
      rfl rfl rfl rfl (by decide) (by decide)⟩


/-! ## The verifier of InterfaceVarABIAttr -/

/-- Characterisation of the keys that `InterfaceVarABIAttr::verifyConstructionInvariants`
accepts: the storage class is read by `getInt` and converted to the `uint32_t` parameter of
`symbolizeStorageClass`. -/
theorem interfaceVarABI_verify_success_iff (E : Enums)
    (descriptorSet binding storageClass : IntegerAttr) :
    InterfaceVarABIAttr.verifyConstructionInvariants E descriptorSet binding storageClass =
        some .success ↔
      (∃ t, descriptorSet.getType = some t ∧ t.isSignlessIntegerOfWidth 32 = true) ∧
      (∃ t, binding.getType = some t ∧ t.isSignlessIntegerOfWidth 32 = true) ∧
      (storageClass.isNonNull = true →
        ∃ v, IntegerAttr.getInt storageClass = some v ∧
          ∃ m, symbolizeStorageClass E (toUInt32 v) = some m) := by
  unfold InterfaceVarABIAttr.verifyConstructionInvariants
  cases descriptorSet.getType with
  | none => simp
  | some dt =>
    by_cases hd : dt.isSignlessIntegerOfWidth 32 = true
    swap
    · simp [hd, emitError]
    cases binding.getType with
    | none => simp [hd]
    | some bt =>
      by_cases hb : bt.isSignlessIntegerOfWidth 32 = true
      swap
      · simp [hd, hb, emitError]
      by_cases hn : storageClass.isNonNull = true
      swap
      · simp [hd, hb, hn]
      have hcast := cast_impl_of_isNonNull storageClass hn
      cases hi : IntegerAttr.getInt storageClass with
      | none => simp [hd, hb, hn, hcast, hi]
      | some v =>
        cases hs : symbolizeStorageClass E (toUInt32 v) <;>
          simp [hd, hb, hn, hcast, hi, hs, emitError]

theorem integerAttr_eq_i32 (a : IntegerAttr) (h : a.getType = some (.integer 32 .Signless)) :
    a = i32 ((IntegerAttr.getValue a).elim 0 APInt.VAL) := by
  obtain ⟨impl, hk⟩ := a
  cases impl with
  | integer s =>
    obtain ⟨t, v, hv⟩ := s
    simp only [IntegerAttr.getType, Option.some.injEq] at h
    subst h
    apply handle_ext
    simp only [i32, IntegerAttr.get, IntegerAttr.getValue, Option.elim, Attribute.integer.injEq]
    exact integerAttributeStorage_ext rfl (Nat.mod_eq_of_lt hv).symm
  | _ => simp [IntegerAttr.getType] at h

theorem interfaceVarABI_verify_descriptorSet (E : Enums)
    (descriptorSet binding storageClass : IntegerAttr) {t : MlirType}
    (ht : descriptorSet.getType = some t) (h32 : t.isSignlessIntegerOfWidth 32 = false) :
    InterfaceVarABIAttr.verifyConstructionInvariants E descriptorSet binding storageClass =
      some (.failure "expected 32-bit integer for descriptor set") := by
  simp [InterfaceVarABIAttr.verifyConstructionInvariants, ht, h32, emitError]

theorem interfaceVarABI_verify_binding (E : Enums)
    (descriptorSet binding storageClass : IntegerAttr) {t u : MlirType}
    (ht : descriptorSet.getType = some t) (h32 : t.isSignlessIntegerOfWidth 32 = true)
    (hu : binding.getType = some u) (hu32 : u.isSignlessIntegerOfWidth 32 = false) :
    InterfaceVarABIAttr.verifyConstructionInvariants E descriptorSet binding storageClass =
      some (.failure "expected 32-bit integer for binding") := by
  simp [InterfaceVarABIAttr.verifyConstructionInvariants, ht, h32, hu, hu32, emitError]

/-- With descriptor set and binding accepted and a storage class present, the outcome is
decided by `getInt` and `symbolizeStorageClass`. -/
theorem interfaceVarABI_verify_storageClass (E : Enums)
    (descriptorSet binding storageClass : IntegerAttr) {t u : MlirType}
    (ht : descriptorSet.getType = some t) (h32 : t.isSignlessIntegerOfWidth 32 = true)
    (hu : binding.getType = some u) (hu32 : u.isSignlessIntegerOfWidth 32 = true)
    (hn : storageClass.isNonNull = true) :
    InterfaceVarABIAttr.verifyConstructionInvariants E descriptorSet binding storageClass =
      match IntegerAttr.getInt storageClass with
      | none => none
      | some v =>
        match symbolizeStorageClass E (toUInt32 v) with
        | none => some (.failure "unknown storage class")
        | some _ => some .success := by
  have hcast := cast_impl_of_isNonNull storageClass hn
  simp only [InterfaceVarABIAttr.verifyConstructionInvariants, ht, h32, hu, hu32, hn, hcast,
    Bool.not_true, Bool.false_eq_true, if_false, if_true, emitError]

/-- C19. The verifier of `InterfaceVarABIAttr` never reports "expected valid storage class":
whenever it returns, its result is success or one of the three errors "expected 32-bit
integer for descriptor set", "expected 32-bit integer for binding" and "unknown storage
class", because the cast of a present storage class to an integer attribute is defined and
not null. -/
theorem interfaceVarABI_verify_outcomes (E : Enums)
    (descriptorSet binding storageClass : IntegerAttr) :
    (InterfaceVarABIAttr.verifyConstructionInvariants E descriptorSet binding storageClass =
        none ∨
      InterfaceVarABIAttr.verifyConstructionInvariants E descriptorSet binding storageClass =
        some .success ∨
      InterfaceVarABIAttr.verifyConstructionInvariants E descriptorSet binding storageClass =
        some (.failure "expected 32-bit integer for descriptor set") ∨
      InterfaceVarABIAttr.verifyConstructionInvariants E descriptorSet binding storageClass =
        some (.failure "expected 32-bit integer for binding") ∨
      InterfaceVarABIAttr.verifyConstructionInvariants E descriptorSet binding storageClass =
        some (.failure "unknown storage class")) ∧
    InterfaceVarABIAttr.verifyConstructionInvariants E descriptorSet binding storageClass ≠
      some (.failure "expected valid storage class") ∧
    (storageClass.isNonNull = false ∨
      ∃ storageClassAttr, storageClass.impl.cast IntegerAttr.classof = some storageClassAttr ∧
        storageClassAttr.isNonNull = true) := by
  have hcases : InterfaceVarABIAttr.verifyConstructionInvariants E descriptorSet binding
        storageClass = none ∨
      InterfaceVarABIAttr.verifyConstructionInvariants E descriptorSet binding storageClass =
        some .success ∨
      InterfaceVarABIAttr.verifyConstructionInvariants E descriptorSet binding storageClass =
        some (.failure "expected 32-bit integer for descriptor set") ∨
      InterfaceVarABIAttr.verifyConstructionInvariants E descriptorSet binding storageClass =
        some (.failure "expected 32-bit integer for binding") ∨
      InterfaceVarABIAttr.verifyConstructionInvariants E descriptorSet binding storageClass =
        some (.failure "unknown storage class") := by
    cases ht : descriptorSet.getType with
    | none => exact Or.inl (by simp [InterfaceVarABIAttr.verifyConstructionInvariants, ht])
    | some t =>
      cases h32 : t.isSignlessIntegerOfWidth 32 with
      | false =>
        exact Or.inr (Or.inr (Or.inl
          (interfaceVarABI_verify_descriptorSet E _ _ _ ht h32)))
      | true =>
        cases hu : binding.getType with
        | none =>
          exact Or.inl (by simp [InterfaceVarABIAttr.verifyConstructionInvariants, ht, h32, hu])
        | some u =>
          cases hu32 : u.isSignlessIntegerOfWidth 32 with
          | false =>
            exact Or.inr (Or.inr (Or.inr (Or.inl
              (interfaceVarABI_verify_binding E _ _ _ ht h32 hu hu32))))
          | true =>
            cases hn : storageClass.isNonNull with
            | false =>
              exact Or.inr (Or.inl
                (by simp [InterfaceVarABIAttr.verifyConstructionInvariants, ht, h32, hu, hu32,
                  hn]))
            | true =>
              rw [interfaceVarABI_verify_storageClass E _ _ _ ht h32 hu hu32 hn]
              cases hi : IntegerAttr.getInt storageClass with
              | none => exact Or.inl rfl
              | some v =>
                cases hs : symbolizeStorageClass E (toUInt32 v) with
                | none => exact Or.inr (Or.inr (Or.inr (Or.inr (by simp only [hs]))))
                | some m => exact Or.inr (Or.inl (by simp only [hs]))
  refine ⟨hcases, ?_, ?_⟩
  · rcases hcases with h | h | h | h | h <;> rw [h] <;> decide
  · cases hn : storageClass.isNonNull with
    | false => exact Or.inl rfl
    | true => exact Or.inr ⟨storageClass, cast_impl_of_isNonNull storageClass hn, hn⟩

section Engine

variable {Args KeyTy Storage : Type} (K : AttrKind Args KeyTy Storage)

/-- A request that returned a record finds the same record again and leaves the table as it
is. -/
theorem getOrCreate_again (keyOf : Storage → KeyTy)
    (hEq : ∀ r k, K.equals r k = true ↔ keyOf r = k)
    (hCons : ∀ k, keyOf (K.construct k) = k)
    {table t : List Storage} {args : Args} {p : Nat} {r : Storage}
    (h : getOrCreate K table args = some ⟨t, .ok (p, r)⟩) :
    getOrCreate K t args = some ⟨t, .ok (p, r)⟩ := by
  cases hp : probe (fun r => K.equals r (K.key args)) table with
  | some i =>
    obtain ⟨r', -, -, hg⟩ := getOrCreate_found K hp
    rw [hg] at h
    cases h
    exact hg
  | none =>
    cases hv : K.verify args with
    | none => simp [getOrCreate, hp, hv] at h
    | some res =>
      cases res with
      | failure d =>
        rw [getOrCreate_rejected K hp hv] at h
        cases h
      | success =>
        rw [getOrCreate_created K hp hv] at h
        cases h
        have hnew := probe_append_singleton (fun r => K.equals r (K.key args)) table
          (K.construct (K.key args))
        rw [hp] at hnew
        have hc : K.equals (K.construct (K.key args)) (K.key args) = true :=
          (hEq _ _).2 (hCons _)
        simp only [hc, if_true] at hnew
        obtain ⟨r', hr', -, hg⟩ := getOrCreate_found K hnew
        have : r' = K.construct (K.key args) := by
          have := hr'
          simp at this
          exact this.symm
        subst this
        exact hg

theorem repeatRequests_of_again {t : List Storage} {args : Args} {p : Nat} {r : Storage}
    (h : getOrCreate K t args = some ⟨t, .ok (p, r)⟩) (n : Nat) :
    repeatRequests K n t args = some (t, List.replicate n (.ok (p, r))) := by
  induction n with
  | zero => rfl
  | succ n ih => simp only [repeatRequests, h, ih, List.replicate_succ]

/-- Idempotence of the engine: the requests after the first return the record of the first
and no request after the first changes the table. -/
theorem repeatRequests_of_valid (keyOf : Storage → KeyTy)
    (hEq : ∀ r k, K.equals r k = true ↔ keyOf r = k)
    (hCons : ∀ k, keyOf (K.construct k) = k)
    (hRecon : ∀ r, K.construct (keyOf r) = r)
    (table : List Storage) (args : Args) (hv : K.verify args = some .success) :
    ∃ t p r, getOrCreate K table args = some ⟨t, .ok (p, r)⟩ ∧
      ∀ n, repeatRequests K (n + 1) table args =
        some (t, List.replicate (n + 1) (.ok (p, r))) := by
  obtain ⟨t, p, hg⟩ := getOrCreate_of_valid K keyOf hEq hRecon table args hv
  refine ⟨t, p, _, hg, fun n => ?_⟩
  have hagain := getOrCreate_again K keyOf hEq hCons hg
  simp only [repeatRequests, hg, repeatRequests_of_again K hagain n, List.replicate_succ]

end Engine

theorem idempotentRequests_of_valid {Args KeyTy Storage : Type}
    (K : AttrKind Args KeyTy Storage) (keyOf : Storage → KeyTy)
    (hEq : ∀ r k, K.equals r k = true ↔ keyOf r = k)
    (hCons : ∀ k, keyOf (K.construct k) = k)
    (hRecon : ∀ r, K.construct (keyOf r) = r)
    (table : List Storage) (args : Args) (hv : K.verify args = some .success) :
    IdempotentRequests K table args := by
  obtain ⟨t, p, r, hg, hrep⟩ := repeatRequests_of_valid K keyOf hEq hCons hRecon table args hv
  exact ⟨t, p, r, hg, getOrCreate_table K hg, fun n => ⟨t, hrep n, rfl⟩⟩

/-- C13 (idempotence). For each of the three kinds, for every valid key and every number
`n + 1` of successive requests for it in one context, all the requests return the same record
and the table holds as many records after the last request as after the first. -/
theorem idempotence (E : Enums) (limitsKind : List (String × Attribute) → Bool)
    (context : MLIRContext)
    (i : IntegerAttr × IntegerAttr × IntegerAttr)
    (v : IntegerAttr × ArrayAttr × ArrayAttr)
    (e : VerCapExtAttr × DictionaryAttr)
    (hi : InterfaceVarABIAttr.verifyConstructionInvariants E i.1 i.2.1 i.2.2 = some .success)
    (hv : VerCapExtAttr.verifyConstructionInvariants E v.1 v.2.1 v.2.2 = some .success)
    (he : TargetEnvAttr.verifyConstructionInvariants limitsKind e.1 e.2 = some .success) :
    IdempotentRequests (InterfaceVarABIAttr.kind E) context.interfaceVarABI i ∧
    IdempotentRequests (VerCapExtAttr.kind E) context.verCapExt v ∧
    IdempotentRequests (TargetEnvAttr.kind limitsKind) context.targetEnv e :=
  ⟨idempotentRequests_of_valid (InterfaceVarABIAttr.kind E)
      (fun r => (r.descriptorSet, r.binding, r.storageClass))
      interfaceVarABI_operator_eq_iff (fun _ => rfl) (fun _ => rfl) _ i hi,
    idempotentRequests_of_valid (VerCapExtAttr.kind E)
      (fun r => (r.version, r.capabilities, r.extensions))
      verCapExt_operator_eq_iff (fun _ => rfl) (fun _ => rfl) _ v hv,
    idempotentRequests_of_valid (TargetEnvAttr.kind limitsKind)
      (fun r => (r.triple, r.limits))
      targetEnv_operator_eq_iff (fun _ => rfl) (fun _ => rfl) _ e he⟩

/-- Idempotence in the empty context for the interface variable ABI key (2, 1, `Uniform`),
the `vce` key of version 1.0 with `Shader`, and the sample target environment; three
successive requests for the first key return the record at position 0 each time. -/
theorem idempotence_witness :
    InterfaceVarABIAttr.verifyConstructionInvariants sampleEnums (i32 2) (i32 1) (i32 2) =
      some .success ∧
    VerCapExtAttr.verifyConstructionInvariants sampleEnums (i32 0) (arrayOf [(i32 1).impl])
      (arrayOf []) = some .success ∧
    TargetEnvAttr.verifyConstructionInvariants sampleLimitsKind sampleTriple sampleLimits =
      some .success ∧
    IdempotentRequests (InterfaceVarABIAttr.kind sampleEnums) [] (i32 2, i32 1, i32 2) ∧
    IdempotentRequests (VerCapExtAttr.kind sampleEnums) []
      (i32 0, arrayOf [(i32 1).impl], arrayOf []) ∧
    IdempotentRequests (TargetEnvAttr.kind sampleLimitsKind) [] (sampleTriple, sampleLimits) ∧
    repeatRequests (InterfaceVarABIAttr.kind sampleEnums) 3 [] (i32 2, i32 1, i32 2) =
      some ([⟨(i32 2).impl, (i32 1).impl, (i32 2).impl⟩],
        List.replicate 3 (.ok (0, ⟨(i32 2).impl, (i32 1).impl, (i32 2).impl⟩))) :=
  have h := idempotence sampleEnums sampleLimitsKind emptyContext (i32 2, i32 1, i32 2)
    (i32 0, arrayOf [(i32 1).impl], arrayOf []) (sampleTriple, sampleLimits)
    (by decide) (by decide) (by decide)
  ⟨by decide, by decide, by decide, h.1, h.2.1, h.2.2, rfl⟩

/-! ## The version of a verified VerCapExtAttr -/

theorem verCapExt_getVersion_i32 (n : Nat) (c e : Attribute) :
    VerCapExtAttr.getVersion (VerCapExtAttr.ofStorage ⟨(i32 n).impl, c, e⟩) =
      some ⟨n % 2 ^ 32⟩ := by
  have hz : APInt.getZExtValue ⟨32, n % 2 ^ 32⟩ = some (n % 2 ^ 32) :=
    getZExtValue_of_lt (by omega)
  simp only [VerCapExtAttr.getVersion, VerCapExtAttr.getImpl, VerCapExtAttr.ofStorage,
    Option.bind_eq_bind, Option.some_bind, i32_cast, i32_getValue, hz, Option.pure_def,
    truncUInt32, Nat.mod_mod]

theorem isVersion_iff_symbolizeVersion (E : Enums) (z : Nat) :
    E.isVersion ⟨z⟩ ↔ ∃ m, symbolizeVersion E z = some m := by
  unfold Enums.isVersion symbolizeVersion
  by_cases h : z ∈ E.versions
  · simp [h]
  · simp [h]

/-- C15 (counterexample). The key with the signless 32-bit version 9999 and empty lists passes
the verifier, which only looks at the type of the version; `getVersion` on its record returns
the value 9999, which is no member of the version enumeration. -/
theorem verCapExt_getVersion_member_counterexample :
    ¬ (VerCapExtAttr.verifyConstructionInvariants sampleEnums (i32 9999) (arrayOf [])
          (arrayOf []) = some .success →
        ∃ m, VerCapExtAttr.getVersion (VerCapExtAttr.ofStorage
            (VerCapExtAttributeStorage.construct
              ((i32 9999).impl, (arrayOf []).impl, (arrayOf []).impl))) = some m ∧
          sampleEnums.isVersion m) := by
  intro h
  obtain ⟨m, hm, hmem⟩ := h (by decide)
  have hv : VerCapExtAttr.getVersion (VerCapExtAttr.ofStorage
      (VerCapExtAttributeStorage.construct
        ((i32 9999).impl, (arrayOf []).impl, (arrayOf []).impl))) = some ⟨9999⟩ := by
    decide
  rw [hv, Option.some.injEq] at hm
  subst hm
  revert hmem
  decide

/-- C15 (amended). For every key on which the verifier of `VerCapExtAttr` succeeds,
`getVersion` on the record built from the key returns the value whose numeric code is the
stored 32-bit version; that value is a member of the closed version enumeration exactly when
the reverse symbol lookup of the stored numeric version resolves. -/
theorem verCapExt_getVersion_of_verified (E : Enums) (version : IntegerAttr)
    (capabilities extensions : ArrayAttr)
    (hv : VerCapExtAttr.verifyConstructionInvariants E version capabilities extensions =
      some .success) :
    ∃ z, (IntegerAttr.getValue version >>= APInt.getZExtValue) = some z ∧ z < 2 ^ 32 ∧
      VerCapExtAttr.getVersion (VerCapExtAttr.ofStorage
        (VerCapExtAttributeStorage.construct
          (version.impl, capabilities.impl, extensions.impl))) = some ⟨z⟩ ∧
      (E.isVersion ⟨z⟩ ↔ ∃ m, symbolizeVersion E z = some m) := by
  obtain ⟨⟨t, ht, h32⟩, -, -⟩ := (verCapExt_verify_success_iff E _ _ _).1 hv
  have hty : version.getType = some (.integer 32 .Signless) := by
    rw [ht]
    cases t with
    | index => simp [MlirType.isSignlessIntegerOfWidth] at h32
    | integer w s =>
      cases s <;> simp [MlirType.isSignlessIntegerOfWidth] at h32
      rw [h32]
  have hi := integerAttr_eq_i32 version hty
  generalize (IntegerAttr.getValue version).elim 0 APInt.VAL = n at hi
  subst hi
  refine ⟨n % 2 ^ 32, i32_getZExtValue n, Nat.mod_lt _ (by decide), ?_,
    isVersion_iff_symbolizeVersion E _⟩
  exact verCapExt_getVersion_i32 n _ _

/-- The version of the verified key of version 1.0 with the capability `Shader`. -/
theorem verCapExt_getVersion_of_verified_witness :
    VerCapExtAttr.verifyConstructionInvariants sampleEnums (i32 0) (arrayOf [(i32 1).impl])
      (arrayOf []) = some .success ∧
    ∃ z, (IntegerAttr.getValue (i32 0) >>= APInt.getZExtValue) = some z ∧ z < 2 ^ 32 ∧
      VerCapExtAttr.getVersion (VerCapExtAttr.ofStorage
        (VerCapExtAttributeStorage.construct
          ((i32 0).impl, (arrayOf [(i32 1).impl]).impl, (arrayOf []).impl))) = some ⟨z⟩ ∧
      (sampleEnums.isVersion ⟨z⟩ ↔ ∃ m, symbolizeVersion sampleEnums z = some m) :=
  ⟨by decide,
    verCapExt_getVersion_of_verified sampleEnums (i32 0) (arrayOf [(i32 1).impl]) (arrayOf [])
      (by decide)⟩

/-! ## The ranges of a verified VerCapExtAttr -/

theorem mapM_of_forall_some {α β : Type} (f : α → Option β) (P : β → Prop) (l : List α)
    (h : ∀ a ∈ l, ∃ b, f a = some b ∧ P b) :
    ∃ bs, l.mapM f = some bs ∧ bs.length = l.length ∧ ∀ b ∈ bs, P b := by
  induction l with
  | nil => exact ⟨[], rfl, rfl, fun _ hb => by simp at hb⟩
  | cons a as ih =>
    obtain ⟨b, hb, hPb⟩ := h a (List.mem_cons_self _ _)
    obtain ⟨bs, hbs, hlen, hP⟩ := ih (fun x hx => h x (List.mem_cons_of_mem _ hx))
    refine ⟨b :: bs, ?_, by simp [hlen], ?_⟩
    · rw [List.mapM_cons, hb, hbs]
      rfl
    · intro x hx
      rcases List.mem_cons.1 hx with rfl | hx
      · exact hPb
      · exact hP x hx

theorem cap_iterator_of_resolves (E : Enums) (attr : Attribute)
    (h : VerCapExtAttr.ResolvesCapability E attr) :
    ∃ m, VerCapExtAttr.cap_iterator E attr = some m ∧ E.isCapability m := by
  obtain ⟨s, rfl, hz, m, hm⟩ := h
  have hcast : (Attribute.integer s).cast IntegerAttr.classof = some ⟨.integer s, rfl⟩ := rfl
  have hzext : APInt.getZExtValue ⟨s.type.bitWidth, s.value⟩ = some s.value :=
    getZExtValue_of_lt hz
  refine ⟨m, ?_, ?_⟩
  · simp only [VerCapExtAttr.cap_iterator, hcast, IntegerAttr.getValue, hzext,
      Option.bind_eq_bind, Option.some_bind, hm]
  · unfold symbolizeCapability at hm
    split at hm
    · rename_i hmem
      cases hm
      exact hmem
    · cases hm

theorem ext_iterator_of_resolves (E : Enums) (attr : Attribute)
    (h : VerCapExtAttr.ResolvesExtension E attr) :
    ∃ m, VerCapExtAttr.ext_iterator E attr = some m ∧ E.isExtension m := by
  obtain ⟨str, rfl, m, hm⟩ := h
  have hcast : (Attribute.string str).cast StringAttr.classof = some ⟨.string str, rfl⟩ := rfl
  refine ⟨m, ?_, ?_⟩
  · simp only [VerCapExtAttr.ext_iterator, hcast, StringAttr.getValue, Option.bind_eq_bind,
      Option.some_bind, hm]
  · unfold symbolizeExtension at hm
    obtain ⟨p, hp, rfl⟩ := Option.map_eq_some'.1 hm
    exact List.mem_map.2 ⟨p, List.mem_of_find?_eq_some hp, rfl⟩

/-- C16. For every key on which the verifier of `VerCapExtAttr` succeeds, reading out
`getCapabilities` and `getExtensions` on the record built from the key never meets an empty
lookup result: every stored capability entry is an integer attribute for which
`symbolizeCapability`, applied to the zero-extended value that the iterator uses, returns a
member; every stored extension entry is a string attribute for which `symbolizeExtension`
returns a member; and the two sequences are as long as the stored lists. -/
theorem verCapExt_ranges_defined (E : Enums) (version : IntegerAttr)
    (capabilities extensions : ArrayAttr)
    (hv : VerCapExtAttr.verifyConstructionInvariants E version capabilities extensions =
      some .success) :
    ∃ capAttrs extAttrs caps exts,
      capabilities.getValue = some capAttrs ∧ extensions.getValue = some extAttrs ∧
      (∀ a ∈ capAttrs, VerCapExtAttr.ResolvesCapability E a ∧
        ∃ m, VerCapExtAttr.cap_iterator E a = some m ∧ E.isCapability m) ∧
      (∀ a ∈ extAttrs, VerCapExtAttr.ResolvesExtension E a ∧
        ∃ m, VerCapExtAttr.ext_iterator E a = some m ∧ E.isExtension m) ∧
      VerCapExtAttr.getCapabilities E (VerCapExtAttr.ofStorage
        (VerCapExtAttributeStorage.construct
          (version.impl, capabilities.impl, extensions.impl))) = some caps ∧
      caps.length = capAttrs.length ∧ (∀ c ∈ caps, E.isCapability c) ∧
      VerCapExtAttr.getExtensions E (VerCapExtAttr.ofStorage
        (VerCapExtAttributeStorage.construct
          (version.impl, capabilities.impl, extensions.impl))) = some exts ∧
      exts.length = extAttrs.length ∧ (∀ e ∈ exts, E.isExtension e) := by
  obtain ⟨-, ⟨capAttrs, hc, hcaps⟩, ⟨extAttrs, he, hexts⟩⟩ :=
    (verCapExt_verify_success_iff E _ _ _).1 hv
  obtain ⟨caps, hcm, hcl, hcP⟩ := mapM_of_forall_some (VerCapExtAttr.cap_iterator E)
    (fun m => E.isCapability m) capAttrs
    (fun a ha => cap_iterator_of_resolves E a (hcaps a ha))
  obtain ⟨exts, hem, hel, heP⟩ := mapM_of_forall_some (VerCapExtAttr.ext_iterator E)
    (fun m => E.isExtension m) extAttrs
    (fun a ha => ext_iterator_of_resolves E a (hexts a ha))
  have hcn : capabilities.isNonNull = true := by
    obtain ⟨impl, hk⟩ := capabilities
    cases impl <;> simp_all [ArrayAttr.getValue, Handle.isNonNull, Attribute.isNull]
  have hen : extensions.isNonNull = true := by
    obtain ⟨impl, hk⟩ := extensions
    cases impl <;> simp_all [ArrayAttr.getValue, Handle.isNonNull, Attribute.isNull]
  have hccast := cast_impl_of_isNonNull capabilities hcn
  have hecast := cast_impl_of_isNonNull extensions hen
  refine ⟨capAttrs, extAttrs, caps, exts, hc, he,
    fun a ha => ⟨hcaps a ha, cap_iterator_of_resolves E a (hcaps a ha)⟩,
    fun a ha => ⟨hexts a ha, ext_iterator_of_resolves E a (hexts a ha)⟩,
    ?_, hcl, hcP, ?_, hel, heP⟩
  · simp only [VerCapExtAttr.getCapabilities, VerCapExtAttr.getCapabilitiesAttr,
      VerCapExtAttr.getImpl, VerCapExtAttr.ofStorage, VerCapExtAttributeStorage.construct,
      Option.bind_eq_bind, Option.some_bind, hccast, hc, hcm]
  · simp only [VerCapExtAttr.getExtensions, VerCapExtAttr.getExtensionsAttr,
      VerCapExtAttr.getImpl, VerCapExtAttr.ofStorage, VerCapExtAttributeStorage.construct,
      Option.bind_eq_bind, Option.some_bind, hecast, he, hem]

/-- The ranges of the verified key of version 1.0 with the capabilities `Shader` and `Matrix`
and one extension. -/
theorem verCapExt_ranges_defined_witness :
    VerCapExtAttr.verifyConstructionInvariants sampleEnums (i32 0)
      (arrayOf [(i32 1).impl, (i32 0).impl]) (arrayOf [.string "SPV_KHR_8bit_storage"]) =
        some .success ∧
    VerCapExtAttr.getCapabilities sampleEnums (VerCapExtAttr.ofStorage
      (VerCapExtAttributeStorage.construct ((i32 0).impl,
        (arrayOf [(i32 1).impl, (i32 0).impl]).impl,
        (arrayOf [.string "SPV_KHR_8bit_storage"]).impl))) = some [⟨1⟩, ⟨0⟩] ∧
    ∃ capAttrs extAttrs caps exts,
      (arrayOf [(i32 1).impl, (i32 0).impl]).getValue = some capAttrs ∧
      (arrayOf [.string "SPV_KHR_8bit_storage"]).getValue = some extAttrs ∧
      (∀ a ∈ capAttrs, VerCapExtAttr.ResolvesCapability sampleEnums a ∧
        ∃ m, VerCapExtAttr.cap_iterator sampleEnums a = some m ∧ sampleEnums.isCapability m) ∧
      (∀ a ∈ extAttrs, VerCapExtAttr.ResolvesExtension sampleEnums a ∧
        ∃ m, VerCapExtAttr.ext_iterator sampleEnums a = some m ∧ sampleEnums.isExtension m) ∧
      VerCapExtAttr.getCapabilities sampleEnums (VerCapExtAttr.ofStorage
        (VerCapExtAttributeStorage.construct ((i32 0).impl,
          (arrayOf [(i32 1).impl, (i32 0).impl]).impl,
          (arrayOf [.string "SPV_KHR_8bit_storage"]).impl))) = some caps ∧
      caps.length = capAttrs.length ∧ (∀ c ∈ caps, sampleEnums.isCapability c) ∧
      VerCapExtAttr.getExtensions sampleEnums (VerCapExtAttr.ofStorage
        (VerCapExtAttributeStorage.construct ((i32 0).impl,
          (arrayOf [(i32 1).impl, (i32 0).impl]).impl,
          (arrayOf [.string "SPV_KHR_8bit_storage"]).impl))) = some exts ∧
      exts.length = extAttrs.length ∧ (∀ e ∈ exts, sampleEnums.isExtension e) :=
  ⟨by decide, rfl,
    verCapExt_ranges_defined sampleEnums (i32 0) (arrayOf [(i32 1).impl, (i32 0).impl])
      (arrayOf [.string "SPV_KHR_8bit_storage"]) (by decide)⟩

/-! ## The storage class of a verified InterfaceVarABIAttr -/

/-- For an integer of at least 32 bits the sign-extended and the zero-extended value agree
after conversion to `uint32_t`. -/
theorem toUInt32_signedValue (w val : Nat) (hw : 32 ≤ w) :
    toUInt32 (APInt.signedValue ⟨w, val⟩) = truncUInt32 val := by
  unfold toUInt32 truncUInt32 APInt.signedValue
  dsimp only
  split
  · omega
  · have hpow : (2 : Int) ^ w = 2 ^ 32 * 2 ^ (w - 32) := by
      rw [← pow_add]
      congr 1
      omega
    have : ((val : Int) - 2 ^ w) % 2 ^ 32 = (val : Int) % 2 ^ 32 := by
      rw [hpow, sub_eq_add_neg, ← mul_neg, Int.add_mul_emod_self_left]
    simp only [this]
    omega

theorem getInt_eq_signedValue {s : IntegerAttributeStorage} {h} {v : Int}
    (hv : IntegerAttr.getInt ⟨.integer s, h⟩ = some v) :
    v = APInt.signedValue ⟨s.type.bitWidth, s.value⟩ := by
  simp only [IntegerAttr.getInt, APInt.getSExtValue] at hv
  split at hv
  · split at hv
    · exact (Option.some.inj hv).symm
    · cases hv
  · cases hv

theorem interfaceVarABI_getStorageClass_integer (d b : Attribute) (s : IntegerAttributeStorage)
    (hz : s.value < 2 ^ 64) :
    InterfaceVarABIAttr.getStorageClass (InterfaceVarABIAttr.ofStorage ⟨d, b, .integer s⟩) =
      some (some ⟨truncUInt32 s.value⟩) := by
  have hcast : (Attribute.integer s).cast IntegerAttr.classof = some ⟨.integer s, rfl⟩ := rfl
  have hzext : APInt.getZExtValue ⟨s.type.bitWidth, s.value⟩ = some s.value :=
    getZExtValue_of_lt hz
  have hnull : (Attribute.integer s).isNull = false := rfl
  simp only [InterfaceVarABIAttr.getStorageClass, InterfaceVarABIAttr.getImpl,
    InterfaceVarABIAttr.ofStorage, Option.bind_eq_bind, Option.some_bind, hnull, hcast,
    IntegerAttr.getValue, hzext, Option.pure_def, Bool.not_false, if_true]

/-- C17 (counterexample). For the signless 8-bit integer attribute 255 the verifier reads -1,
which converts to 4294967295, and the accessor reads 255: the two readings do not agree
modulo 2^32. With a table in which 4294967295 is the code of a storage class the key passes
the verifier, and `getStorageClass` returns the value 255 instead of the member that the
verifier resolved. -/
theorem interfaceVarABI_getStorageClass_narrow_counterexample :
    (¬ ∃ v z, IntegerAttr.getInt (i8 255) = some v ∧
        (IntegerAttr.getValue (i8 255) >>= APInt.getZExtValue) = some z ∧
        toUInt32 v = truncUInt32 z) ∧
    ¬ (InterfaceVarABIAttr.verifyConstructionInvariants highCodeEnums (i32 0) (i32 0)
          (i8 255) = some .success →
        ∃ v m, IntegerAttr.getInt (i8 255) = some v ∧
          symbolizeStorageClass highCodeEnums (toUInt32 v) = some m ∧
          InterfaceVarABIAttr.getStorageClass (InterfaceVarABIAttr.ofStorage
            (InterfaceVarABIAttributeStorage.construct
              ((i32 0).impl, (i32 0).impl, (i8 255).impl))) = some (some m)) := by
  have hi : IntegerAttr.getInt (i8 255) = some (-1) := by decide
  have hz : (IntegerAttr.getValue (i8 255) >>= APInt.getZExtValue) = some 255 := by decide
  refine ⟨?_, ?_⟩
  · rintro ⟨v, z, hv, hz', hagree⟩
    rw [hi, Option.some.injEq] at hv
    rw [hz, Option.some.injEq] at hz'
    subst hv hz'
    revert hagree
    decide
  · intro h
    obtain ⟨v, m, hv, hm, hg⟩ := h (by decide)
    rw [hi, Option.some.injEq] at hv
    subst hv
    have hm' : symbolizeStorageClass highCodeEnums (toUInt32 (-1)) = some ⟨4294967295⟩ := by
      decide
    rw [hm', Option.some.injEq] at hm
    subst hm
    have hg' : InterfaceVarABIAttr.getStorageClass (InterfaceVarABIAttr.ofStorage
        (InterfaceVarABIAttributeStorage.construct
          ((i32 0).impl, (i32 0).impl, (i8 255).impl))) = some (some ⟨255⟩) := by
      decide
    rw [hg'] at hg
    revert hg
    decide

/-- C17 (amended). For every key on which the verifier of `InterfaceVarABIAttr` succeeds and
whose storage class, when present, is an integer attribute of at least 32 and at most 64 bits,
`getStorageClass` on the record built from the key returns nothing if the storage class is
absent, and otherwise exactly the member that the lookup of the verifier resolved: the value
read sign-extended by the verifier and the value read zero-extended by the accessor agree
after conversion to 32 bits. -/
theorem interfaceVarABI_getStorageClass_of_verified (E : Enums)
    (descriptorSet binding storageClass : IntegerAttr)
    (hv : InterfaceVarABIAttr.verifyConstructionInvariants E descriptorSet binding
      storageClass = some .success)
    (hw : storageClass.isNonNull = true →
      ∃ t, storageClass.getType = some t ∧ 32 ≤ t.bitWidth ∧ t.bitWidth ≤ 64) :
    (storageClass.isNonNull = false →
      InterfaceVarABIAttr.getStorageClass (InterfaceVarABIAttr.ofStorage
        (InterfaceVarABIAttributeStorage.construct
          (descriptorSet.impl, binding.impl, storageClass.impl))) = some none) ∧
    (storageClass.isNonNull = true →
      ∃ v z m, IntegerAttr.getInt storageClass = some v ∧
        (IntegerAttr.getValue storageClass >>= APInt.getZExtValue) = some z ∧
        toUInt32 v = truncUInt32 z ∧
        symbolizeStorageClass E (toUInt32 v) = some m ∧ E.isStorageClass m ∧
        InterfaceVarABIAttr.getStorageClass (InterfaceVarABIAttr.ofStorage
          (InterfaceVarABIAttributeStorage.construct
            (descriptorSet.impl, binding.impl, storageClass.impl))) = some (some m)) := by
  obtain ⟨-, -, hsc⟩ := (interfaceVarABI_verify_success_iff E _ _ _).1 hv
  obtain ⟨impl, hk⟩ := storageClass
  cases impl with
  | null =>
    refine ⟨fun _ => rfl, fun hn => ?_⟩
    simp [Handle.isNonNull, Attribute.isNull] at hn
  | integer s =>
    refine ⟨fun hn => by simp [Handle.isNonNull, Attribute.isNull] at hn, fun hn => ?_⟩
    obtain ⟨v, hvi, m, hm⟩ := hsc hn
    obtain ⟨t, ht, h32, h64⟩ := hw hn
    simp only [IntegerAttr.getType, Option.some.injEq] at ht
    subst ht
    have hlt : s.value < 2 ^ 64 :=
      lt_of_lt_of_le s.isLt (Nat.pow_le_pow_right (by decide) h64)
    have hsv := getInt_eq_signedValue hvi
    have hagree : toUInt32 v = truncUInt32 s.value := by
      rw [hsv]
      exact toUInt32_signedValue _ _ h32
    have hmem : E.isStorageClass m ∧ m = ⟨toUInt32 v⟩ := by
      unfold symbolizeStorageClass at hm
      split at hm
      · rename_i hin
        cases hm
        exact ⟨hin, rfl⟩
      · cases hm
    refine ⟨v, s.value, m, hvi, ?_, hagree, hm, hmem.1, ?_⟩
    · show APInt.getZExtValue ⟨s.type.bitWidth, s.value⟩ = some s.value
      exact getZExtValue_of_lt hlt
    · rw [hmem.2, hagree]
      exact interfaceVarABI_getStorageClass_integer _ _ s hlt
  | _ => simp [Attribute.isNull, IntegerAttr.classof] at hk

/-- The storage class of the verified key (2, 1, `Uniform`) and of a key whose storage class
is the signless 64-bit integer attribute 2. -/
theorem interfaceVarABI_getStorageClass_of_verified_witness :
    InterfaceVarABIAttr.verifyConstructionInvariants sampleEnums (i32 2) (i32 1) (i64 2) =
      some .success ∧
    ((i64 2).isNonNull = true →
      ∃ t, (i64 2).getType = some t ∧ 32 ≤ t.bitWidth ∧ t.bitWidth ≤ 64) ∧
    InterfaceVarABIAttr.getStorageClass (InterfaceVarABIAttr.ofStorage
      (InterfaceVarABIAttributeStorage.construct
        ((i32 2).impl, (i32 1).impl, (i64 2).impl))) = some (some ⟨2⟩) ∧
    ((i64 2).isNonNull = true →
      ∃ v z m, IntegerAttr.getInt (i64 2) = some v ∧
        (IntegerAttr.getValue (i64 2) >>= APInt.getZExtValue) = some z ∧
        toUInt32 v = truncUInt32 z ∧
        symbolizeStorageClass sampleEnums (toUInt32 v) = some m ∧
        sampleEnums.isStorageClass m ∧
        InterfaceVarABIAttr.getStorageClass (InterfaceVarABIAttr.ofStorage
          (InterfaceVarABIAttributeStorage.construct
            ((i32 2).impl, (i32 1).impl, (i64 2).impl))) = some (some m)) :=
  ⟨by decide, fun _ => ⟨_, rfl, by decide, by decide⟩, by decide,
    (interfaceVarABI_getStorageClass_of_verified sampleEnums (i32 2) (i32 1) (i64 2)
      (by decide) (fun _ => ⟨_, rfl, by decide, by decide⟩)).2⟩

/-! ## Keys built by the raw-value entry points -/

/-- C18. The raw-value entry points only build keys that pass verification: for every
descriptor set, binding and optional member of the storage class enumeration,
`InterfaceVarABIAttr::get` requests the key of three attributes built from them, and that key
passes the verifier; for every version and all lists of capability and extension members,
`VerCapExtAttr::get` requests the key built from them, and that key passes the verifier. -/
theorem raw_entry_points_verified (E : Enums) (hE : E.WellFormed) (context : MLIRContext)
    (descriptorSet binding : Nat) (storageClass : Option StorageClass)
    (version : Version) (capabilities : List Capability) (extensions : List Extension)
    (hsc : ∀ m, storageClass = some m → E.isStorageClass m)
    (hcaps : ∀ c ∈ capabilities, E.isCapability c)
    (hexts : ∀ e ∈ extensions, E.isExtension e) :
    (InterfaceVarABIAttr.get E descriptorSet binding storageClass context =
        InterfaceVarABIAttr.getFromAttrs E context
          (Builder.getI32IntegerAttr (toInt32 descriptorSet))
          (Builder.getI32IntegerAttr (toInt32 binding))
          (InterfaceVarABIAttr.storageClassAttrOf storageClass) ∧
      InterfaceVarABIAttr.verifyConstructionInvariants E
        (Builder.getI32IntegerAttr (toInt32 descriptorSet))
        (Builder.getI32IntegerAttr (toInt32 binding))
        (InterfaceVarABIAttr.storageClassAttrOf storageClass) = some .success) ∧
    (VerCapExtAttr.get E version capabilities extensions context =
        VerCapExtAttr.getFromAttrs E context
          (Builder.getI32IntegerAttr (toInt32 (truncUInt32 version.value)))
          (Builder.getArrayAttr (capabilities.map fun cap =>
            (Builder.getI32IntegerAttr (toInt32 (truncUInt32 cap.value))).impl))
          (Builder.getArrayAttr (extensions.map fun ext =>
            (Builder.getStringAttr (stringifyExtension E ext)).impl)) ∧
      VerCapExtAttr.verifyConstructionInvariants E
        (Builder.getI32IntegerAttr (toInt32 (truncUInt32 version.value)))
        (Builder.getArrayAttr (capabilities.map fun cap =>
          (Builder.getI32IntegerAttr (toInt32 (truncUInt32 cap.value))).impl))
        (Builder.getArrayAttr (extensions.map fun ext =>
          (Builder.getStringAttr (stringifyExtension E ext)).impl)) = some .success) := by
  refine ⟨⟨?_, ?_⟩, ⟨rfl, ?_⟩⟩
  · cases storageClass <;> rfl
  · have hraw := interfaceVarABI_verify_raw E descriptorSet binding storageClass
      (fun m hm => ⟨hsc m hm, hE.1 _ (hsc m hm)⟩)
    cases storageClass with
    | none =>
      simp only [getI32IntegerAttr_toInt32, InterfaceVarABIAttr.storageClassAttrOf]
      exact hraw
    | some sc =>
      simp only [getI32IntegerAttr_toInt32, i32_truncUInt32,
        InterfaceVarABIAttr.storageClassAttrOf]
      exact hraw
  · have hraw := verCapExt_verify_raw E hE version capabilities extensions hcaps hexts
    simp only [getI32IntegerAttr_toInt32, i32_truncUInt32]
    exact hraw

/-- The keys built from the raw values (2, 4294967295, `Uniform`) and from version 1.0 with
the capabilities `Shader` and `Matrix` and one extension pass the verifiers. -/
theorem raw_entry_points_verified_witness :
    sampleEnums.WellFormed ∧
    InterfaceVarABIAttr.verifyConstructionInvariants sampleEnums
      (Builder.getI32IntegerAttr (toInt32 2)) (Builder.getI32IntegerAttr (toInt32 4294967295))
      (InterfaceVarABIAttr.storageClassAttrOf (some ⟨2⟩)) = some .success ∧
    VerCapExtAttr.verifyConstructionInvariants sampleEnums
      (Builder.getI32IntegerAttr (toInt32 (truncUInt32 0)))
      (Builder.getArrayAttr (([⟨1⟩, ⟨0⟩] : List Capability).map fun cap =>
        (Builder.getI32IntegerAttr (toInt32 (truncUInt32 cap.value))).impl))
      (Builder.getArrayAttr (([⟨2⟩] : List Extension).map fun ext =>
        (Builder.getStringAttr (stringifyExtension sampleEnums ext)).impl)) = some .success :=
  have h := raw_entry_points_verified sampleEnums (by decide) emptyContext 2 4294967295
    (some ⟨2⟩) ⟨0⟩ [⟨1⟩, ⟨0⟩] [⟨2⟩]
    (fun m hm => by
      cases hm
      decide)
    (by decide) (by decide)
  ⟨by decide, h.1.2, h.2.2⟩

/-! ## The verifier of VerCapExtAttr against the numeric codes -/

end spirv

end mlir
